import Mathlib

/-!
# met-uu-se: the scraping core (`findChildren`, `nodeText`, `parse`) and the dispatch switch

A shallow embedding of `main.go`.

* `*html.Node` is the type `Node`: the nil pointer is `Node.nil`, a node carries the fields the
  program reads (`Type`, `Data`, `FirstChild`, `NextSibling`).  The fields `Parent`, `LastChild`,
  `PrevSibling`, `DataAtom`, `Namespace` and `Attr` are never read by the program.  Trees are
  finite and without cycles.  Any node may have children, as in the Go struct.
* Go strings are Lean strings: sequences of Unicode code points (UTF-8 text).  `len(s) > 0` holds
  exactly when the string has a code point, and `s[0:1] == "-"` holds exactly when the first code
  point is the hyphen.
* `strings.ToLower` belongs to the Go standard library; it maps every code point through
  `unicode.ToLower`.  The rune mapping is a parameter `lr : Char → Char` of the embedding.
* A run-time panic (nil dereference, index or slice out of range) is an `Except.error`.
-/

set_option linter.dupNamespace false
set_option maxRecDepth 100000

namespace MetUU

/-! ## The program -/

/-- The node kinds of `golang.org/x/net/html`. -/
inductive NodeType where
  | ErrorNode
  | TextNode
  | DocumentNode
  | ElementNode
  | CommentNode
  | DoctypeNode
  | RawNode
  deriving DecidableEq, Repr

/-- A value of type `*html.Node`: the nil pointer, or a node with its kind, its data (the tag
name of an element, the text of a text node) and the pointers to its first child and to its next
sibling. -/
inductive Node where
  | nil : Node
  | mk (type : NodeType) (data : String) (firstChild nextSibling : Node) : Node
  deriving DecidableEq, Repr

/-- Run-time panics of the Go program. -/
inductive Panic where
  | nilDereference
  | indexOutOfRange
  | sliceOutOfRange
  deriving DecidableEq, Repr

/-- The struct `Value` of `main.go`. -/
structure Value where
  Name : String
  Value : String
  Unit : String
  deriving DecidableEq, Repr

open NodeType

/-- The loop of `findChildren`: `n` is the loop variable, `c` the slice built so far.  The
recursive call `findChildren(n, tag)` is the same loop started at `n.FirstChild` with an empty
slice. -/
def findLoop (tag : String) : Node → List Node → List Node
  | Node.nil, c => c
  | n@(Node.mk t d fc ns), c =>
    findLoop tag ns
      (if t = ElementNode then
        (if d = tag then c ++ [n] else c) ++ findLoop tag fc []
      else c)

/-- The function `findChildren(node, tag)`; reading `node.FirstChild` of a nil node panics. -/
def findChildren (node : Node) (tag : String) : Except Panic (List Node) :=
  match node with
  | Node.nil => Except.error Panic.nilDereference
  | Node.mk _ _ fc _ => Except.ok (findLoop tag fc [])

/-- The loop of `nodeText` over the children of an element: `n` is the loop variable, `s` the
string built so far; the summand is `nodeText(n)`. -/
def textLoop : Node → String → String
  | Node.nil, s => s
  | Node.mk t d fc ns, s =>
    textLoop ns
      (s ++ (if t = TextNode then d else if t = ElementNode then textLoop fc "" else ""))

/-- The function `nodeText(node)`. -/
def nodeText (node : Node) : String :=
  match node with
  | Node.nil => ""
  | Node.mk t d fc _ =>
    if t = TextNode then d else if t = ElementNode then textLoop fc "" else ""

/-- The call `strings.ToLower(s)`, over the rune mapping `lr` (the standard library's
`unicode.ToLower`): every code point of `s` is mapped, in order. -/
def toLower (lr : Char → Char) (s : String) : String :=
  String.mk (s.data.map lr)

/-- Lower-casing of the ASCII letters, the part of `unicode.ToLower` on code points below 128;
used to run the embedding on concrete documents. -/
def asciiLower (c : Char) : Char :=
  if 65 ≤ c.toNat ∧ c.toNat ≤ 90 then Char.ofNat (c.toNat + 32) else c

/-- The access `cols[i]` on a slice: out of range panics. -/
def index (cols : List Node) (i : Nat) : Except Panic Node :=
  match cols.get? i with
  | some c => Except.ok c
  | none => Except.error Panic.indexOutOfRange

/-- The slice `s[0:1]`: panics on the empty string.  For a first code point outside ASCII the
Go slice is a fragment of its encoding; like the value here, it differs from `"-"`. -/
def sliceFirst (s : String) : Except Panic String :=
  match s.data with
  | [] => Except.error Panic.sliceOutOfRange
  | c :: _ => Except.ok (String.singleton c)

/-- The body of the `for _, n := range chld` loop of `parse`; the state is the pair of the
variables `lv` and `vals`. -/
def parseBody (lr : Char → Char) (n : Node) (st : Value × List Value) :
    Except Panic (Value × List Value) :=
  match findChildren n "td" with
  | Except.error e => Except.error e
  | Except.ok cols =>
    if cols.length = 4 then
      match index cols 1 with
      | Except.error e => Except.error e
      | Except.ok c1 =>
        match index cols 2 with
        | Except.error e => Except.error e
        | Except.ok c2 =>
          match index cols 3 with
          | Except.error e => Except.error e
          | Except.ok c3 =>
            let v : Value := ⟨toLower lr (nodeText c1), nodeText c2, nodeText c3⟩
            if 0 < v.Name.length ∧ 0 < st.1.Name.length then
              match sliceFirst v.Name with
              | Except.error e => Except.error e
              | Except.ok p =>
                if p = "-" then
                  Except.ok (st.1, st.2 ++ [{ v with Name := st.1.Name ++ " " ++ v.Name }])
                else
                  Except.ok (v, st.2 ++ [v])
            else
              Except.ok (v, st.2 ++ [v])
    else
      Except.ok st

/-- The `for _, n := range chld` loop of `parse`. -/
def parseLoop (lr : Char → Char) : List Node → Value × List Value →
    Except Panic (Value × List Value)
  | [], st => Except.ok st
  | n :: rest, st =>
    match parseBody lr n st with
    | Except.error e => Except.error e
    | Except.ok st1 => parseLoop lr rest st1

/-- The function `parse(data)`: the returned pair `(vals, err)`; `err` is `none` for Go's nil
error, and the nil slice is the empty list. -/
def parse (lr : Char → Char) (data : Node) : Except Panic (List Value × Option String) :=
  if data = Node.nil then
    Except.ok ([], some "nil body")
  else
    match findChildren data "tr" with
    | Except.error e => Except.error e
    | Except.ok chld =>
      match parseLoop lr chld (⟨"", "", ""⟩, []) with
      | Except.error e => Except.error e
      | Except.ok st => Except.ok (st.2, none)

/-- The three devices created in `main`. -/
inductive Device where
  | tempDev
  | humidDev
  | otherDev
  deriving DecidableEq, Repr

/-- One call `dev.Feature(feature).Update(value)`. -/
structure Update where
  device : Device
  feature : String
  value : String
  deriving DecidableEq, Repr

/-- The `switch v.Name` of the loop over `vals` in `main`: the update made for a value, if any.
The strings `feature.CurrentTemperature.String()` and
`feature.CurrentRelativeHumidity.String()` come from the library `lib.hemtjan.st/feature` and
are the parameters `ct` and `crh`. -/
def dispatch (ct crh : String) (v : Value) : Option Update :=
  if v.Name = "temperature" then
    some ⟨Device.tempDev, ct, v.Value⟩
  else if v.Name = "air humidity" then
    some ⟨Device.humidDev, crh, v.Value⟩
  else if v.Name = "precipitation last hour" then
    if v.Unit = "mm (disdrometer)" then
      some ⟨Device.otherDev, "precipitation", v.Value⟩
    else
      none
  else if v.Name = "wind speed" then
    some ⟨Device.otherDev, "windSpeed", v.Value⟩
  else if v.Name = "wind direction" then
    some ⟨Device.otherDev, "windDirection", v.Value⟩
  else if v.Name = "air pressure" then
    some ⟨Device.otherDev, "airPressure", v.Value⟩
  else if v.Name = "global radiation" then
    some ⟨Device.otherDev, "globalRadiation", v.Value⟩
  else
    none

/-- The updates made by the loop `for _, v := range vals` of `main`, in order. -/
def dispatchAll (ct crh : String) (vals : List Value) : List Update :=
  vals.filterMap (dispatch ct crh)

/-! ## Document order and positions -/

/-- The chain `n`, `n.NextSibling`, `n.NextSibling.NextSibling`, ... up to the nil pointer. -/
def siblings : Node → List Node
  | Node.nil => []
  | n@(Node.mk _ _ _ ns) => n :: siblings ns

/-- The child pointer of a node (nil for the nil pointer). -/
def firstChildOf : Node → Node
  | Node.nil => Node.nil
  | Node.mk _ _ fc _ => fc

/-- The sibling pointer of a node (nil for the nil pointer). -/
def nextSiblingOf : Node → Node
  | Node.nil => Node.nil
  | Node.mk _ _ _ ns => ns

/-- The children of a node, first to last. -/
def children (n : Node) : List Node := siblings (firstChildOf n)

/-- Every node of the forest hanging from the pointer `n` (the node, its descendants, its later
siblings and their descendants), each position once, in pre-order depth-first order. -/
def preorder : Node → List Node
  | Node.nil => []
  | n@(Node.mk _ _ fc ns) => n :: (preorder fc ++ preorder ns)

/-- The proper descendants of a node at every depth, in document order. -/
def descendants (n : Node) : List Node := preorder (firstChildOf n)

/-- The nodes of the forest hanging from `n` that are reached through element nodes only: as
`preorder`, but the children of a node that is not an element are left out. -/
def elementPreorder : Node → List Node
  | Node.nil => []
  | n@(Node.mk t _ fc ns) =>
    n :: ((if t = ElementNode then elementPreorder fc else []) ++ elementPreorder ns)

/-- The subtree under a node, cut off from its later siblings. -/
def detach : Node → Node
  | Node.nil => Node.nil
  | Node.mk t d fc _ => Node.mk t d fc Node.nil

/-- The node is an element with the given tag name. -/
def isElementNamed (tag : String) : Node → Bool
  | Node.nil => false
  | Node.mk t d _ _ => decide (t = ElementNode) && decide (d = tag)

/-- The node is a text node. -/
def isText : Node → Bool
  | Node.nil => false
  | Node.mk t _ _ _ => decide (t = TextNode)

/-- The node is an element. -/
def isElement : Node → Bool
  | Node.nil => false
  | Node.mk t _ _ _ => decide (t = ElementNode)

/-- The `Data` field of a node. -/
def dataOf : Node → String
  | Node.nil => ""
  | Node.mk _ d _ _ => d

/-- The node `k` steps along the sibling chain from `n`. -/
def nthSibling (n : Node) : Nat → Node
  | 0 => n
  | k + 1 => nthSibling (nextSiblingOf n) k

/-- The node at a position: a position is the list of child indices leading to it from the
root, so `[2, 0]` is the first child of the third child. -/
def nodeAt : Node → List Nat → Node
  | n, [] => n
  | n, i :: p => nodeAt (nthSibling (firstChildOf n) i) p

/-- The positions, relative to the parent, of the nodes listed by `elementPreorder n`, where
`n` is child number `k` of the parent. -/
def elementPositions : Node → Nat → List (List Nat)
  | Node.nil, _ => []
  | Node.mk t _ fc ns, k =>
    [k] :: ((if t = ElementNode then (elementPositions fc 0).map (List.cons k) else []) ++
      elementPositions ns (k + 1))

/-- The position `p`, read in the sibling chain starting at `n`, leads to a node and every node
on the way to it is an element. -/
def reachIn (n : Node) : List Nat → Bool
  | [] => false
  | [i] => decide (nthSibling n i ≠ Node.nil)
  | i :: j :: q =>
    isElement (nthSibling n i) && reachIn (firstChildOf (nthSibling n i)) (j :: q)

/-- The position `p` below `root` leads to a node that is reached from the root through
element nodes only. -/
def reachable (root : Node) (p : List Nat) : Bool := reachIn (firstChildOf root) p

/-- All `tr` elements among the proper descendants of a node, in document order. -/
def trDescendants (data : Node) : List Node := (descendants data).filter (isElementNamed "tr")

/-- All `td` elements among the proper descendants of a node, in document order. -/
def tdDescendants (r : Node) : List Node := (descendants r).filter (isElementNamed "td")

/-- The `nodeText` of entry `i` of a list of nodes (counted from 0). -/
def textAt (l : List Node) (i : Nat) : String :=
  match l.get? i with
  | some c => nodeText c
  | none => ""

/-- The sibling chain starting at `n` without its node number `k`. -/
def removeSibling : Node → Nat → Node
  | Node.nil, _ => Node.nil
  | Node.mk _ _ _ ns, 0 => ns
  | Node.mk t d fc ns, k + 1 => Node.mk t d fc (removeSibling ns k)

/-- The sibling chain starting at `n` with its node number `k` replaced by `f` of it. -/
def mapSibling (f : Node → Node) : Node → Nat → Node
  | Node.nil, _ => Node.nil
  | Node.mk t d fc ns, 0 => f (Node.mk t d fc ns)
  | Node.mk t d fc ns, k + 1 => Node.mk t d fc (mapSibling f ns k)

/-- The node with another chain of children. -/
def withChildren (n fc : Node) : Node :=
  match n with
  | Node.nil => Node.nil
  | Node.mk t d _ ns => Node.mk t d fc ns

/-- The tree without the node at position `p` (and all below it); the later siblings of the
node move up. -/
def removeAt : List Nat → Node → Node
  | [], n => n
  | [i], n => withChildren n (removeSibling (firstChildOf n) i)
  | i :: j :: q, n => withChildren n (mapSibling (removeAt (j :: q)) (firstChildOf n) i)

/-! ## Rows, cells and the state of the loop -/

/-- The rows of a document: the slice `findChildren(data, "tr")`. -/
def rows (data : Node) : List Node :=
  match findChildren data "tr" with
  | Except.ok l => l
  | Except.error _ => []

/-- The cells of a row: the slice `findChildren(n, "td")`. -/
def cells (n : Node) : List Node :=
  match findChildren n "td" with
  | Except.ok l => l
  | Except.error _ => []

/-- The row has exactly 4 cells. -/
def fourCells (n : Node) : Bool := decide ((cells n).length = 4)

/-- The `nodeText` of cell number `i` of a row (counted from 0). -/
def cellText (n : Node) (i : Nat) : String :=
  match (cells n).get? i with
  | some c => nodeText c
  | none => ""

/-- The label of a row as `parse` computes it: the lower-cased text of cell 1. -/
def label (lr : Char → Char) (n : Node) : String := toLower lr (cellText n 1)

/-- The condition of the continuation branch: the row's name and the name held in `lv` are
both non-empty and the row's name starts with a hyphen. -/
def continues (lvName name : String) : Bool :=
  decide (0 < name.length) && decide (0 < lvName.length) && decide (name.data.head? = some '-')

/-- The state of the loop of `parse` after one row, as a total function. -/
def rowStep (lr : Char → Char) (st : Value × List Value) (n : Node) : Value × List Value :=
  if fourCells n then
    if continues st.1.Name (label lr n) then
      (st.1, st.2 ++ [⟨st.1.Name ++ " " ++ label lr n, cellText n 2, cellText n 3⟩])
    else
      (⟨label lr n, cellText n 2, cellText n 3⟩,
        st.2 ++ [⟨label lr n, cellText n 2, cellText n 3⟩])
  else st

/-- The names with a case in the switch. -/
def routedNames : List String :=
  ["temperature", "air humidity", "precipitation last hour", "wind speed", "wind direction",
    "air pressure", "global radiation"]

/-- Trimming as the specification words it (`trim`): the white space at the two ends of the
string is removed. -/
def specTrim (s : String) : String :=
  String.mk ((s.data.dropWhile Char.isWhitespace).reverse.dropWhile Char.isWhitespace).reverse

/-- No node strictly between `up` and the position `p` below it is a `tr` element. -/
def outsideRows : Node → List Nat → Bool
  | _, [] => true
  | _, [_] => true
  | up, i :: j :: q =>
    !(isElementNamed "tr" (nthSibling (firstChildOf up) i)) &&
      outsideRows (nthSibling (firstChildOf up) i) (j :: q)

/-- The rows with 4 cells that `findChildren` lists in the chain starting at `n`, each as the
subtree under it. -/
def rowsIn (n : Node) : List Node := ((findLoop "tr" n []).filter fourCells).map detach

/-! ## Documents -/

/-- A text node without children. -/
def textNode (s : String) (next : Node) : Node := Node.mk TextNode s Node.nil next

/-- An element node. -/
def element (tag : String) (child next : Node) : Node := Node.mk ElementNode tag child next

/-- A document with the given rows and nothing else: the document node whose children are the
chain starting at `first`. -/
def docOf (first : Node) : Node := Node.mk DocumentNode "" first Node.nil

/-- One row of the sample table: a spacer cell, the label, the value and the unit, with the
white space of the source between them. -/
def sampleRow (name value : String) (unit next : Node) : Node :=
  element "tr"
    (textNode " \n\t\t" (element "td" Node.nil
      (textNode "  \n\t\t" (element "td" (textNode name Node.nil)
        (textNode " \n\t\t" (element "td" (textNode value Node.nil)
          (textNode " \n\t\t" (element "td" unit
            (textNode " \n\t" Node.nil))))))))) next

/-- The 13 rows of `testData`, separated by the white space of the source. -/
def sampleRows : Node :=
  sampleRow "Temperature" "29.2" (textNode "°C" Node.nil) <| textNode "\n\t" <|
  sampleRow "-max last 12h" "29.7" (textNode "°C" Node.nil) <| textNode "\n\t" <|
  sampleRow "-min last 12h" "16.4" (textNode "°C" Node.nil) <| textNode "\n\t" <|
  sampleRow "Wind speed" "2.0" (textNode "m/s" Node.nil) <| textNode "\n\t" <|
  sampleRow "Wind direction" "326" (textNode "°" Node.nil) <| textNode "\n\t" <|
  sampleRow "Air pressure" "1016.3" (textNode "hPa" Node.nil) <| textNode "\n\t" <|
  sampleRow "Air humidity" "48.6" (textNode "%" Node.nil) <| textNode "\n\t" <|
  sampleRow "Global radiation" "705"
    (textNode "W/m" (element "sup" (textNode "2" Node.nil) Node.nil)) <| textNode "\n\t" <|
  sampleRow "Precipitation last hour" "0.0"
    (textNode "mm (tipping bucket)" Node.nil) <| textNode "\n\t" <|
  sampleRow "Precipitation last hour" "0.00"
    (textNode "mm (disdrometer)" Node.nil) <| textNode "\n\t" <|
  sampleRow "Precipitation 24 hours" "0.0"
    (textNode "mm (tipping bucket)" Node.nil) <| textNode "\n\t" <|
  sampleRow "Precipitation 24 hours" "0.00"
    (textNode "mm (disdrometer)" Node.nil) <| textNode "\n\t" <|
  sampleRow "Snow depth/grass height" "0" (textNode "cm" Node.nil) <| textNode "\n" Node.nil

/-- The tree that `html.Parse` builds for `testData`: the document node, `html`, an empty
`head`, and the `body` with the heading and the table, whose rows sit in a `tbody`; the
entity `&deg` is the degree sign, and white space between the tags is kept as text nodes. -/
def sampleDoc : Node :=
  Node.mk DocumentNode ""
    (element "html"
      (element "head" Node.nil
        (element "body"
          (element "h3" (textNode "Observations from Uppsala 2019-07-25 10:20 SNT" Node.nil)
            (textNode "\n"
              (element "table" (textNode "\n\t" (element "tbody" sampleRows Node.nil))
                (textNode "\n" Node.nil))))
          Node.nil))
      Node.nil)
    Node.nil

/-- The slice `comp` of `TestParse`. -/
def sampleValues : List Value :=
  [⟨"temperature", "29.2", "°C"⟩,
   ⟨"temperature -max last 12h", "29.7", "°C"⟩,
   ⟨"temperature -min last 12h", "16.4", "°C"⟩,
   ⟨"wind speed", "2.0", "m/s"⟩,
   ⟨"wind direction", "326", "°"⟩,
   ⟨"air pressure", "1016.3", "hPa"⟩,
   ⟨"air humidity", "48.6", "%"⟩,
   ⟨"global radiation", "705", "W/m2"⟩,
   ⟨"precipitation last hour", "0.0", "mm (tipping bucket)"⟩,
   ⟨"precipitation last hour", "0.00", "mm (disdrometer)"⟩,
   ⟨"precipitation 24 hours", "0.0", "mm (tipping bucket)"⟩,
   ⟨"precipitation 24 hours", "0.00", "mm (disdrometer)"⟩,
   ⟨"snow depth/grass height", "0", "cm"⟩]

/-- A row with two cells only. -/
def shortRow (next : Node) : Node :=
  element "tr" (element "td" (textNode "Observations" Node.nil)
    (element "td" (textNode "Uppsala" Node.nil) Node.nil)) next

/-- A row of 4 cells without white space between them. -/
def plainRow (name value unit : String) (next : Node) : Node :=
  element "tr"
    (element "td" Node.nil
      (element "td" (textNode name Node.nil)
        (element "td" (textNode value Node.nil)
          (element "td" (textNode unit Node.nil) Node.nil)))) next

/-- Three rows: a primary row and two continuation rows. -/
def threeRows : Node :=
  plainRow "Temperature" "29.2" "°C" <|
  plainRow "-max last 12h" "29.7" "°C" <|
  plainRow "-min last 12h" "16.4" "°C" Node.nil

/-- The three rows with a two-cell row between the primary row and its continuations. -/
def threeRowsAndShort : Node :=
  plainRow "Temperature" "29.2" "°C" <| shortRow <|
  plainRow "-max last 12h" "29.7" "°C" <|
  plainRow "-min last 12h" "16.4" "°C" Node.nil

/-- Rows of which the first with 4 cells has a label starting with a hyphen. -/
def hyphenFirstRows : Node :=
  shortRow <|
  plainRow "-Max last 12h" "29.7" "°C" <|
  plainRow "-min last 12h" "16.4" "°C" Node.nil

/-- A row whose label cell holds the text " Temperature ", with a space at each end. -/
def paddedRow : Node := plainRow " Temperature " "29.2" "°C" Node.nil

/-- A `tr` element below a document node that is itself the child of a `div` element. -/
def wrappedDoc : Node :=
  element "div" (Node.mk DocumentNode "" (element "tr" Node.nil Node.nil) Node.nil) Node.nil

/-- An element whose only child is a text node "a" that has a text node "b" as its child. -/
def nestedText : Node :=
  element "td" (Node.mk TextNode "a" (textNode "b" Node.nil) Node.nil) Node.nil

/-- The unit cell of the "Global radiation" row, `W/m<sup>2</sup>`. -/
def radiationUnitCell : Node :=
  element "td" (textNode "W/m" (element "sup" (textNode "2" Node.nil) Node.nil)) Node.nil

/-- A document whose only row sits below a comment node. -/
def hiddenRowDoc : Node :=
  docOf (Node.mk CommentNode "note" (plainRow "Temperature" "29.2" "°C" Node.nil) Node.nil)

/-- A row with 4 cells as children and a fifth `td` below a comment node. -/
def hiddenCellRow : Node :=
  element "tr"
    (element "td" Node.nil
      (element "td" (textNode "Temperature" Node.nil)
        (element "td" (textNode "29.2" Node.nil)
          (element "td" (textNode "°C" Node.nil)
            (Node.mk CommentNode "note" (element "td" Node.nil Node.nil) Node.nil))))) Node.nil

/-- A row with one cell, as it stands in a table nested in a cell. -/
def innerRow : Node := element "tr" (element "td" (textNode "inner" Node.nil) Node.nil) Node.nil

/-- A document with one row of three cells, the third of which holds the text "V", a nested
table whose rows are the chain `inner`, and the text "W". -/
def nestingDoc (inner : Node) : Node :=
  docOf (element "tr"
    (element "td" Node.nil
      (element "td" (textNode "Outer" Node.nil)
        (element "td"
          (textNode "V" (element "table" (element "tbody" inner Node.nil)
            (textNode "W" Node.nil))) Node.nil))) Node.nil)

/-- Three rows: two primary rows and a continuation row. -/
def gustRows : Node :=
  plainRow "Temperature" "29.2" "°C" <|
  plainRow "Wind speed" "2.0" "m/s" <|
  plainRow "-gust" "5.1" "m/s" Node.nil

/-! ## The tree walker -/

theorem findLoop_acc (tag : String) (n : Node) (c : List Node) :
    findLoop tag n c = c ++ findLoop tag n [] := by
  induction n generalizing c with
  | nil => simp [findLoop]
  | mk t d fc ns _ ihs =>
    rw [findLoop, ihs, findLoop, ihs (if t = ElementNode then _ else _)]
    by_cases ht : t = ElementNode
    · by_cases hd : d = tag <;> simp [ht, hd]
    · simp [ht]

theorem findLoop_eq_filter (tag : String) (n : Node) :
    findLoop tag n [] = (elementPreorder n).filter (isElementNamed tag) := by
  induction n with
  | nil => simp [findLoop, elementPreorder]
  | mk t d fc ns ihc ihs =>
    rw [findLoop, findLoop_acc, elementPreorder, ihs]
    by_cases ht : t = ElementNode
    · by_cases hd : d = tag <;>
        simp [ht, hd, ihc, List.filter_cons, isElementNamed, List.filter_append]
    · simp [ht, List.filter_cons, isElementNamed]

theorem textLoop_acc (n : Node) (s : String) : textLoop n s = s ++ textLoop n "" := by
  induction n generalizing s with
  | nil => simp [textLoop]
  | mk t d fc ns _ ihs =>
    rw [textLoop, ihs, textLoop, ihs ("" ++ _)]
    simp [String.append_assoc]

theorem textLoop_eq_nodeText (t : NodeType) (d : String) (fc ns : Node) (s : String) :
    textLoop (Node.mk t d fc ns) s = textLoop ns (s ++ nodeText (Node.mk t d fc ns)) := by
  simp [textLoop, nodeText]

/-! ## Rows and cells -/

theorem findLoop_ne_nil (tag : String) (n x : Node) (hx : x ∈ findLoop tag n []) :
    x ≠ Node.nil := by
  rw [findLoop_eq_filter, List.mem_filter] at hx
  intro h
  rw [h] at hx
  simp [isElementNamed] at hx

theorem sliceFirst_eq (s : String) (h : 0 < s.length) :
    ∃ c rest, s.data = c :: rest ∧ sliceFirst s = Except.ok (String.singleton c) := by
  unfold sliceFirst
  cases hs : s.data with
  | nil => simp [String.length, hs] at h
  | cons c rest => exact ⟨c, rest, rfl, rfl⟩

theorem singleton_eq_hyphen (c : Char) : String.singleton c = "-" ↔ c = '-' := by
  constructor
  · intro h
    have := congrArg String.data h
    simpa [String.singleton] using this
  · intro h
    rw [h]
    rfl

theorem parseBody_eq (lr : Char → Char) (n : Node) (st : Value × List Value)
    (hn : n ≠ Node.nil) : parseBody lr n st = Except.ok (rowStep lr st n) := by
  cases n with
  | nil => exact absurd rfl hn
  | mk t d fc ns =>
    unfold parseBody rowStep fourCells label cellText cells
    simp only [findChildren]
    by_cases h4 : (findLoop "td" fc []).length = 4
    · obtain ⟨c0, c1, c2, c3, hc⟩ : ∃ c0 c1 c2 c3, findLoop "td" fc [] = [c0, c1, c2, c3] := by
        match hl : findLoop "td" fc [], h4 with
        | [c0, c1, c2, c3], _ => exact ⟨c0, c1, c2, c3, rfl⟩
      simp only [hc, index, List.length_cons, List.length_nil, List.get?, if_true, decide_True]
      by_cases hlen : 0 < (toLower lr (nodeText c1)).length ∧ 0 < st.1.Name.length
      · obtain ⟨c, rest, hdata, hslice⟩ := sliceFirst_eq _ hlen.1
        simp only [hlen, and_self, if_true, hslice, singleton_eq_hyphen, continues, hdata,
          List.head?_cons, Option.some.injEq, decide_True, Bool.true_and]
        by_cases hc : c = '-' <;> simp [hc]
      · have : continues st.1.Name (toLower lr (nodeText c1)) = false := by
          simp only [continues]
          rcases not_and_or.mp hlen with h | h <;> simp [h]
        simp [hlen, this]
    · simp [h4]

theorem parseLoop_eq (lr : Char → Char) (l : List Node) (st : Value × List Value)
    (hl : ∀ n ∈ l, n ≠ Node.nil) :
    parseLoop lr l st = Except.ok (l.foldl (rowStep lr) st) := by
  induction l generalizing st with
  | nil => rfl
  | cons n rest ih =>
    rw [parseLoop, parseBody_eq lr n st (hl n (List.mem_cons_self _ _))]
    exact ih _ (fun m hm => hl m (List.mem_cons_of_mem _ hm))

theorem rows_ne_nil (data n : Node) (hn : n ∈ rows data) : n ≠ Node.nil := by
  cases data with
  | nil => simp [rows, findChildren] at hn
  | mk t d fc ns => exact findLoop_ne_nil "tr" fc n (by simpa [rows, findChildren] using hn)

theorem parse_eq (lr : Char → Char) (data : Node) (h : data ≠ Node.nil) :
    parse lr data =
      Except.ok (((rows data).foldl (rowStep lr) (⟨"", "", ""⟩, [])).2, none) := by
  cases data with
  | nil => exact absurd rfl h
  | mk t d fc ns =>
    have hr : rows (Node.mk t d fc ns) = findLoop "tr" fc [] := rfl
    unfold parse
    simp only [findChildren, reduceCtorEq, if_false]
    rw [parseLoop_eq lr _ _ (fun n hn => rows_ne_nil (Node.mk t d fc ns) n (hr ▸ hn)), hr]

/-! ## The loop of `parse` as a fold over the rows -/

theorem rowStep_skip (lr : Char → Char) (st : Value × List Value) (n : Node)
    (h : fourCells n = false) : rowStep lr st n = st := by
  simp [rowStep, h]

theorem foldl_rowStep_filter (lr : Char → Char) (l : List Node) (st : Value × List Value) :
    l.foldl (rowStep lr) st = (l.filter fourCells).foldl (rowStep lr) st := by
  induction l generalizing st with
  | nil => rfl
  | cons n rest ih =>
    cases h : fourCells n with
    | false => simp [List.filter_cons, h, rowStep_skip lr st n h, ih]
    | true => simp [List.filter_cons, h, ih]

theorem rowStep_fields (lr : Char → Char) (st : Value × List Value) (n : Node)
    (h : fourCells n = true) :
    (rowStep lr st n).2.map (fun v => (v.Value, v.Unit)) =
      st.2.map (fun v => (v.Value, v.Unit)) ++ [(cellText n 2, cellText n 3)] := by
  unfold rowStep
  cases hc : continues st.1.Name (label lr n) <;> simp [h]

theorem foldl_rowStep_fields (lr : Char → Char) (l : List Node) (st : Value × List Value) :
    (l.foldl (rowStep lr) st).2.map (fun v => (v.Value, v.Unit)) =
      st.2.map (fun v => (v.Value, v.Unit)) ++
        (l.filter fourCells).map (fun r => (cellText r 2, cellText r 3)) := by
  induction l generalizing st with
  | nil => simp
  | cons n rest ih =>
    cases h : fourCells n with
    | false => simp [List.filter_cons, h, rowStep_skip lr st n h, ih]
    | true => simp [List.filter_cons, h, ih, rowStep_fields lr st n h]

theorem rowStep_vals (lr : Char → Char) (st : Value × List Value) (n : Node) :
    ∃ more, (rowStep lr st n).2 = st.2 ++ more := by
  unfold rowStep
  split_ifs
  · exact ⟨_, rfl⟩
  · exact ⟨_, rfl⟩
  · exact ⟨[], by simp⟩

theorem foldl_rowStep_vals (lr : Char → Char) (l : List Node) (st : Value × List Value) :
    ∃ more, (l.foldl (rowStep lr) st).2 = st.2 ++ more := by
  induction l generalizing st with
  | nil => exact ⟨[], by simp⟩
  | cons n rest ih =>
    obtain ⟨m1, h1⟩ := rowStep_vals lr st n
    obtain ⟨m2, h2⟩ := ih (rowStep lr st n)
    exact ⟨m1 ++ m2, by simp [h2, h1]⟩

theorem parseLoop_append (lr : Char → Char) (a b : List Node) (st : Value × List Value) :
    parseLoop lr (a ++ b) st =
      match parseLoop lr a st with
      | Except.error e => Except.error e
      | Except.ok st1 => parseLoop lr b st1 := by
  induction a generalizing st with
  | nil => rfl
  | cons n rest ih =>
    simp only [List.cons_append, parseLoop]
    cases parseBody lr n st with
    | error e => rfl
    | ok st1 => exact ih st1

theorem elementPreorder_eq_preorder (n : Node)
    (h : ∀ x ∈ preorder n, isElement x = false → firstChildOf x = Node.nil) :
    elementPreorder n = preorder n := by
  induction n with
  | nil => rfl
  | mk t d fc ns ihc ihs =>
    have hs : elementPreorder ns = preorder ns := by
      apply ihs
      intro x hx
      apply h
      simp [preorder, hx]
    rw [elementPreorder, preorder, hs]
    by_cases ht : t = ElementNode
    · have hc : elementPreorder fc = preorder fc := by
        apply ihc
        intro x hx
        apply h
        simp [preorder, hx]
      simp [ht, hc]
    · have hfc : fc = Node.nil := by
        have := h (Node.mk t d fc ns) (by simp [preorder]) (by simp [isElement, ht])
        simpa [firstChildOf] using this
      simp [ht, hfc, preorder]

theorem elementPreorder_sublist (n : Node) : (elementPreorder n).Sublist (preorder n) := by
  induction n with
  | nil => exact List.Sublist.refl _
  | mk t d fc ns ihc ihs =>
    rw [elementPreorder, preorder]
    apply List.Sublist.cons₂
    apply List.Sublist.append _ ihs
    by_cases ht : t = ElementNode
    · simpa [ht] using ihc
    · simp [ht]

theorem preorder_descend (n r x : Node) (hr : r ∈ preorder n)
    (hx : x ∈ preorder (firstChildOf r)) : x ∈ preorder n := by
  induction n with
  | nil => simp [preorder] at hr
  | mk t d fc ns ihc ihs =>
    rw [preorder, List.mem_cons, List.mem_append] at hr
    rw [preorder, List.mem_cons, List.mem_append]
    rcases hr with hr | hr | hr
    · rw [hr] at hx
      exact Or.inr (Or.inl hx)
    · exact Or.inr (Or.inl (ihc hr))
    · exact Or.inr (Or.inr (ihs hr))

theorem rows_eq_filter (data : Node) :
    rows data = (elementPreorder (firstChildOf data)).filter (isElementNamed "tr") := by
  cases data with
  | nil => rfl
  | mk t d fc ns => exact findLoop_eq_filter "tr" fc

theorem cells_eq_filter (n : Node) :
    cells n = (elementPreorder (firstChildOf n)).filter (isElementNamed "td") := by
  cases n with
  | nil => rfl
  | mk t d fc ns => exact findLoop_eq_filter "td" fc

/-- C1 as stated fails: in `hiddenRowDoc` one `tr` element with exactly 4 `td` descendants
lies below a comment node, and `parse` returns no value, since `findChildren` does not look
below a node that is not an element. -/
theorem parse_misses_row_below_non_element :
    (trDescendants hiddenRowDoc).filter (fun r => decide ((tdDescendants r).length = 4)) =
      [plainRow "Temperature" "29.2" "°C" Node.nil] ∧
    parse asciiLower hiddenRowDoc = Except.ok ([], none) ∧
    ¬ (∀ data, data ≠ Node.nil → ∃ vals, parse asciiLower data = Except.ok (vals, none) ∧
      vals.map (fun v => (v.Value, v.Unit)) =
        ((trDescendants data).filter (fun r => decide ((tdDescendants r).length = 4))).map
          (fun r => (textAt (tdDescendants r) 2, textAt (tdDescendants r) 3))) := by
  have h1 : (trDescendants hiddenRowDoc).filter
      (fun r => decide ((tdDescendants r).length = 4)) =
      [plainRow "Temperature" "29.2" "°C" Node.nil] := by rfl
  have h2 : parse asciiLower hiddenRowDoc = Except.ok ([], none) := by rfl
  refine ⟨h1, h2, ?_⟩
  intro hall
  obtain ⟨vals, hp, hm⟩ := hall hiddenRowDoc (by decide)
  rw [h2] at hp
  have hv : vals = [] := by
    injection hp with hp
    exact (congrArg Prod.fst hp).symm
  rw [h1, hv] at hm
  exact absurd (congrArg List.length hm) (by simp)

/-- C1, amended: for a non-nil document `parse` succeeds, and its values correspond one to one
and in order to the rows with exactly 4 cells: row by row, `Value` and `Unit` are the
`nodeText` of cell 2 and cell 3 as they stand.  The rows are the `tr` elements reached from the
root through element nodes only, and the cells of a row the `td` elements reached from the row
through element nodes only, in the pre-order listing that `findChildren` produces; in a
document where only elements have children below the root, these are all the `tr` elements
below the root and all the `td` elements below the row. -/
theorem parse_one_value_per_row (lr : Char → Char) (data : Node) (h : data ≠ Node.nil) :
    ∃ vals, parse lr data = Except.ok (vals, none) ∧
      vals.length = ((rows data).filter fourCells).length ∧
      vals.map (fun v => (v.Value, v.Unit)) =
        ((rows data).filter fourCells).map (fun r => (cellText r 2, cellText r 3)) ∧
      rows data = (elementPreorder (firstChildOf data)).filter (isElementNamed "tr") ∧
      (∀ r, cells r = (elementPreorder (firstChildOf r)).filter (isElementNamed "td")) ∧
      ((∀ x ∈ descendants data, isElement x = false → firstChildOf x = Node.nil) →
        rows data = (descendants data).filter (isElementNamed "tr") ∧
        ∀ r ∈ rows data, cells r = (descendants r).filter (isElementNamed "td")) := by
  refine ⟨_, parse_eq lr data h, ?_, ?_, rows_eq_filter data, cells_eq_filter, ?_⟩
  · have := congrArg List.length
      (foldl_rowStep_fields lr (rows data) ((⟨"", "", ""⟩ : Value), ([] : List Value)))
    simpa using this
  · simpa using foldl_rowStep_fields lr (rows data) ((⟨"", "", ""⟩ : Value), ([] : List Value))
  · intro hleaf
    have hrows : rows data = (descendants data).filter (isElementNamed "tr") := by
      rw [rows_eq_filter, descendants, elementPreorder_eq_preorder _ hleaf]
    refine ⟨hrows, ?_⟩
    intro r hr
    rw [cells_eq_filter, descendants, elementPreorder_eq_preorder]
    intro x hx
    have hrd : r ∈ descendants data := by
      rw [hrows] at hr
      exact List.mem_of_mem_filter hr
    exact hleaf x (preorder_descend _ r x hrd hx)

/-- The sample table of `TestParse` gives the 13 values of the test, in its order (C1). -/
theorem parse_one_value_per_row_witness :
    sampleDoc ≠ Node.nil ∧
    parse asciiLower sampleDoc = Except.ok (sampleValues, none) ∧
    sampleValues.length = 13 ∧
    (∀ x ∈ descendants sampleDoc, isElement x = false → firstChildOf x = Node.nil) ∧
    ∃ vals, parse asciiLower sampleDoc = Except.ok (vals, none) ∧
      vals.length = ((rows sampleDoc).filter fourCells).length ∧
      vals.map (fun v => (v.Value, v.Unit)) =
        ((rows sampleDoc).filter fourCells).map (fun r => (cellText r 2, cellText r 3)) ∧
      rows sampleDoc = (elementPreorder (firstChildOf sampleDoc)).filter (isElementNamed "tr") ∧
      (∀ r, cells r = (elementPreorder (firstChildOf r)).filter (isElementNamed "td")) ∧
      ((∀ x ∈ descendants sampleDoc, isElement x = false → firstChildOf x = Node.nil) →
        rows sampleDoc = (descendants sampleDoc).filter (isElementNamed "tr") ∧
        ∀ r ∈ rows sampleDoc, cells r = (descendants r).filter (isElementNamed "td")) :=
  ⟨by decide, by rfl, by rfl, by decide,
    parse_one_value_per_row asciiLower sampleDoc (by decide)⟩

/-! ## Rows without exactly 4 cells -/

theorem cells_detach (n : Node) : cells (detach n) = cells n := by
  cases n <;> rfl

theorem rowStep_detach (lr : Char → Char) (st : Value × List Value) (n : Node) :
    rowStep lr st (detach n) = rowStep lr st n := by
  simp [rowStep, fourCells, label, cellText, cells_detach]

theorem foldl_rowStep_detach (lr : Char → Char) (l : List Node) (st : Value × List Value) :
    (l.map detach).foldl (rowStep lr) st = l.foldl (rowStep lr) st := by
  induction l generalizing st with
  | nil => rfl
  | cons n rest ih => simp [rowStep_detach, ih]

theorem fourCells_mk (t : NodeType) (d : String) (fc ns ns1 : Node) :
    fourCells (Node.mk t d fc ns) = fourCells (Node.mk t d fc ns1) := rfl

theorem rowsIn_mk (t : NodeType) (d : String) (fc ns : Node) :
    rowsIn (Node.mk t d fc ns) =
      (if t = ElementNode then
        (if d = "tr" ∧ fourCells (Node.mk t d fc Node.nil) = true then
          [Node.mk t d fc Node.nil] else []) ++ rowsIn fc
      else []) ++ rowsIn ns := by
  unfold rowsIn
  rw [findLoop, findLoop_acc]
  by_cases ht : t = ElementNode
  · by_cases hd : d = "tr"
    · subst ht hd
      by_cases h4 : fourCells (Node.mk ElementNode "tr" fc Node.nil) = true
      · have h4a : fourCells (Node.mk ElementNode "tr" fc ns) = true := h4
        simp [h4, List.filter_append, List.filter_cons, detach, h4a]
      · have h4a : ¬ fourCells (Node.mk ElementNode "tr" fc ns) = true := h4
        simp [h4, List.filter_append, List.filter_cons, h4a]
    · simp [ht, hd, List.filter_append]
  · simp [ht]

theorem rowsIn_split (t : NodeType) (d : String) (fc ns : Node) :
    rowsIn (Node.mk t d fc ns) = rowsIn (Node.mk t d fc Node.nil) ++ rowsIn ns := by
  rw [rowsIn_mk t d fc ns, rowsIn_mk t d fc Node.nil]
  simp [rowsIn, findLoop]


theorem rowsIn_nil : rowsIn Node.nil = [] := rfl

theorem rowsIn_removeSibling (n : Node) (i : Nat)
    (h : rowsIn (detach (nthSibling n i)) = []) : rowsIn (removeSibling n i) = rowsIn n := by
  induction n generalizing i with
  | nil => cases i <;> rfl
  | mk t d fc ns _ ihs =>
    cases i with
    | zero =>
      have h0 : rowsIn (Node.mk t d fc Node.nil) = [] := h
      rw [removeSibling, rowsIn_split, h0, List.nil_append]
    | succ k =>
      have hk : rowsIn (detach (nthSibling ns k)) = [] := h
      rw [removeSibling, rowsIn_split t d fc (removeSibling ns k), rowsIn_split t d fc ns,
        ihs k hk]

theorem rowsIn_mapSibling (f : Node → Node) (n : Node) (i : Nat)
    (hf : ∀ t d fc ns, nthSibling n i = Node.mk t d fc ns →
      ∃ fc1, f (Node.mk t d fc ns) = Node.mk t d fc1 ns ∧
        rowsIn (Node.mk t d fc1 Node.nil) = rowsIn (Node.mk t d fc Node.nil)) :
    rowsIn (mapSibling f n i) = rowsIn n := by
  induction n generalizing i with
  | nil => cases i <;> rfl
  | mk t d fc ns _ ihs =>
    cases i with
    | zero =>
      obtain ⟨fc1, h1, h2⟩ := hf t d fc ns rfl
      rw [mapSibling, h1, rowsIn_split t d fc1 ns, rowsIn_split t d fc ns, h2]
    | succ k =>
      rw [mapSibling, rowsIn_split t d fc (mapSibling f ns k), rowsIn_split t d fc ns,
        ihs k (fun t1 d1 fc1 ns1 h1 => hf t1 d1 fc1 ns1 h1)]

theorem removeAt_shape (p : List Nat) (hp : p ≠ []) (t : NodeType) (d : String) (fc ns : Node) :
    removeAt p (Node.mk t d fc ns) =
      Node.mk t d (firstChildOf (removeAt p (Node.mk t d fc ns))) ns := by
  match p, hp with
  | [i], _ => rfl
  | i :: j :: q, _ => rfl

theorem rowsIn_removeAt (p : List Nat) (up : Node) (hp : p ≠ [])
    (hout : outsideRows up p = true) (hrow : rowsIn (detach (nodeAt up p)) = []) :
    rowsIn (firstChildOf (removeAt p up)) = rowsIn (firstChildOf up) := by
  induction p generalizing up with
  | nil => exact absurd rfl hp
  | cons i q ih =>
    cases up with
    | nil => cases q <;> rfl
    | mk t d fc ns =>
      cases q with
      | nil => exact rowsIn_removeSibling fc i hrow
      | cons j r =>
        have hout1 : isElementNamed "tr" (nthSibling fc i) = false ∧
            outsideRows (nthSibling fc i) (j :: r) = true := by
          simpa [outsideRows, firstChildOf] using hout
        show rowsIn (mapSibling (removeAt (j :: r)) fc i) = rowsIn fc
        apply rowsIn_mapSibling
        intro t1 d1 fc1 ns1 ha
        refine ⟨firstChildOf (removeAt (j :: r) (Node.mk t1 d1 fc1 ns1)),
          removeAt_shape (j :: r) (by simp) t1 d1 fc1 ns1, ?_⟩
        have hrec := ih (Node.mk t1 d1 fc1 ns1) (by simp) (ha ▸ hout1.2)
          (by simpa [nodeAt, firstChildOf, ha] using hrow)
        rw [rowsIn_mk, rowsIn_mk t1 d1 fc1 Node.nil, hrec]
        have hnot : ¬ (t1 = ElementNode ∧ d1 = "tr") := by
          have := hout1.1
          rw [ha] at this
          simpa [isElementNamed] using this
        by_cases ht : t1 = ElementNode
        · have hd : d1 ≠ "tr" := fun hd => hnot ⟨ht, hd⟩
          simp [ht, hd, firstChildOf]
        · simp [ht]

theorem rowsIn_detach_eq_nil (r : Node) (h4 : fourCells r = false)
    (hall : ∀ x ∈ rows r, fourCells x = false) : rowsIn (detach r) = [] := by
  cases r with
  | nil => rfl
  | mk t d fc ns =>
    have h4a : ¬ fourCells (Node.mk t d fc Node.nil) = true := by
      rw [fourCells_mk t d fc Node.nil ns, h4]
      simp
    have hfc : rowsIn fc = [] := by
      have hrows : rows (Node.mk t d fc ns) = findLoop "tr" fc [] := rfl
      have hfil : (findLoop "tr" fc []).filter fourCells = [] := by
        rw [List.filter_eq_nil_iff]
        intro x hx
        simp [hall x (hrows ▸ hx)]
      simp [rowsIn, hfil]
    show rowsIn (Node.mk t d fc Node.nil) = []
    rw [rowsIn_mk, hfc]
    simp [h4a, rowsIn_nil]

theorem parse_eq_rowsIn (lr : Char → Char) (data : Node) (h : data ≠ Node.nil) :
    parse lr data =
      Except.ok (((rowsIn (firstChildOf data)).foldl (rowStep lr) (⟨"", "", ""⟩, [])).2,
        none) := by
  rw [parse_eq lr data h, foldl_rowStep_filter]
  cases data with
  | nil => exact absurd rfl h
  | mk t d fc ns =>
    have hrows : rows (Node.mk t d fc ns) = findLoop "tr" fc [] := rfl
    rw [hrows, rowsIn, firstChildOf, foldl_rowStep_detach]

theorem removeAt_ne_nil (p : List Nat) (data : Node) (h : data ≠ Node.nil) :
    removeAt p data ≠ Node.nil := by
  cases data with
  | nil => exact absurd rfl h
  | mk t d fc ns =>
    match p with
    | [] => exact h
    | [i] => simp [removeAt, withChildren]
    | i :: j :: q => simp [removeAt, withChildren]

/-- C4 as stated fails in two ways.  The row `hiddenCellRow` has 5 `td` descendants, one of
them below a comment node, and still produces a value.  And in `nestingDoc innerRow` the row
`innerRow`, nested in a cell of the outer row, has 1 `td` descendant; the document without it
is `nestingDoc Node.nil`, and the output changes from one value to none, since the `td` of the
nested row counts as the fourth cell of the outer row. -/
theorem parse_changes_with_other_rows :
    ((tdDescendants hiddenCellRow).length = 5 ∧
      parse asciiLower (docOf hiddenCellRow) =
        Except.ok ([⟨"temperature", "29.2", "°C"⟩], none)) ∧
    ¬ (∀ data, data ≠ Node.nil → ∃ st,
      parseLoop asciiLower
          ((trDescendants data).filter (fun r => decide ((tdDescendants r).length = 4)))
          (⟨"", "", ""⟩, []) = Except.ok st ∧
        parse asciiLower data = Except.ok (st.2, none)) ∧
    (nodeAt (nestingDoc innerRow) [0, 2, 1, 0, 0] = innerRow ∧
      (tdDescendants innerRow).length = 1 ∧
      removeAt [0, 2, 1, 0, 0] (nestingDoc innerRow) = nestingDoc Node.nil ∧
      parse asciiLower (nestingDoc innerRow) =
        Except.ok ([⟨"outer", "VinnerW", "inner"⟩], none) ∧
      parse asciiLower (nestingDoc Node.nil) = Except.ok ([], none)) ∧
    ¬ (∀ data p, data ≠ Node.nil → isElementNamed "tr" (nodeAt data p) = true →
      (tdDescendants (nodeAt data p)).length ≠ 4 →
      parse asciiLower (removeAt p data) = parse asciiLower data) := by
  have h1 : parse asciiLower (docOf hiddenCellRow) =
      Except.ok ([⟨"temperature", "29.2", "°C"⟩], none) := by rfl
  have h2 : parse asciiLower (nestingDoc innerRow) =
      Except.ok ([⟨"outer", "VinnerW", "inner"⟩], none) := by rfl
  have h3 : parse asciiLower (nestingDoc Node.nil) = Except.ok ([], none) := by rfl
  have h4 : removeAt [0, 2, 1, 0, 0] (nestingDoc innerRow) = nestingDoc Node.nil := by rfl
  refine ⟨⟨by rfl, h1⟩, ?_, ⟨by rfl, by rfl, h4, h2, h3⟩, ?_⟩
  · intro hall
    obtain ⟨st, hloop, hp⟩ := hall (docOf hiddenCellRow) (by decide)
    have hempty : (trDescendants (docOf hiddenCellRow)).filter
        (fun r => decide ((tdDescendants r).length = 4)) = [] := by rfl
    rw [hempty] at hloop
    simp only [parseLoop] at hloop
    injection hloop with hloop
    rw [← hloop, h1] at hp
    exact absurd hp (by simp)
  · intro hall
    have := hall (nestingDoc innerRow) [0, 2, 1, 0, 0] (by decide) (by rfl) (by decide)
    rw [h4, h2, h3] at this
    exact absurd this (by simp)

/-- C4, amended: for a non-nil document, a row whose number of cells (the `td` elements that
`findChildren` lists for it, reached through element nodes only) is not 4 leaves the state of
the loop (`lv` and `vals`) as it was; the output of `parse` is the output of its loop run over
the rows with exactly 4 cells only; a document with one more such row, put anywhere in the
sequence of rows (each row taken as the subtree under it, the other rows being the same), has
the same output; and so has the tree from which such a row is removed, at any position that
lies inside no other row, when the row holds no row with 4 cells itself. -/
theorem parse_skips_other_rows (lr : Char → Char) (data : Node) (h : data ≠ Node.nil) :
    (∀ n ∈ rows data, fourCells n = false → ∀ st, parseBody lr n st = Except.ok st) ∧
    (∃ st, parseLoop lr ((rows data).filter fourCells) (⟨"", "", ""⟩, []) = Except.ok st ∧
      parse lr data = Except.ok (st.2, none)) ∧
    (∀ data1 front back n, data1 ≠ Node.nil → (rows data).map detach = front ++ back →
      (rows data1).map detach = front ++ n :: back → fourCells n = false →
      parse lr data1 = parse lr data) ∧
    (∀ p, p ≠ [] → outsideRows data p = true → fourCells (nodeAt data p) = false →
      (∀ x ∈ rows (nodeAt data p), fourCells x = false) →
      parse lr (removeAt p data) = parse lr data) := by
  refine ⟨?_, ?_, ?_, ?_⟩
  · intro n hn h4 st
    rw [parseBody_eq lr n st (rows_ne_nil data n hn), rowStep_skip lr st n h4]
  · refine ⟨_, parseLoop_eq lr _ _ ?_, ?_⟩
    · intro n hn
      exact rows_ne_nil data n (List.mem_of_mem_filter hn)
    · rw [parse_eq lr data h, foldl_rowStep_filter]
  · intro data1 front back n h1 hd hd1 h4
    rw [parse_eq lr data1 h1, parse_eq lr data h, ← foldl_rowStep_detach lr (rows data1),
      ← foldl_rowStep_detach lr (rows data), hd, hd1]
    simp [List.foldl_append, rowStep_skip lr _ n h4]
  · intro p hp hout h4 hall
    rw [parse_eq_rowsIn lr _ (removeAt_ne_nil p data h), parse_eq_rowsIn lr data h,
      rowsIn_removeAt p data hp hout (rowsIn_detach_eq_nil _ h4 hall)]

/-- A two-cell row between "Temperature" and its continuation rows changes nothing: the
document with it and the document without it, which is the tree with the node at position
`[1]` removed, have the same output (C4, amended). -/
theorem parse_skips_other_rows_witness :
    (docOf threeRows ≠ Node.nil ∧ docOf threeRowsAndShort ≠ Node.nil) ∧
    removeAt [1] (docOf threeRowsAndShort) = docOf threeRows ∧
    parse asciiLower (docOf threeRowsAndShort) =
      Except.ok ([⟨"temperature", "29.2", "°C"⟩, ⟨"temperature -max last 12h", "29.7", "°C"⟩,
        ⟨"temperature -min last 12h", "16.4", "°C"⟩], none) ∧
    parse asciiLower (docOf threeRowsAndShort) = parse asciiLower (docOf threeRows) ∧
    parse asciiLower (removeAt [1] (docOf threeRowsAndShort)) =
      parse asciiLower (docOf threeRowsAndShort) ∧
    (∀ n ∈ rows (docOf threeRowsAndShort), fourCells n = false →
      ∀ st, parseBody asciiLower n st = Except.ok st) ∧
    (∃ st, parseLoop asciiLower ((rows (docOf threeRowsAndShort)).filter fourCells)
        (⟨"", "", ""⟩, []) = Except.ok st ∧
      parse asciiLower (docOf threeRowsAndShort) = Except.ok (st.2, none)) :=
  ⟨⟨by decide, by decide⟩, by rfl, by rfl,
    (parse_skips_other_rows asciiLower (docOf threeRows) (by decide)).2.2.1
      (docOf threeRowsAndShort) [plainRow "Temperature" "29.2" "°C" Node.nil]
      [plainRow "-max last 12h" "29.7" "°C" Node.nil,
        plainRow "-min last 12h" "16.4" "°C" Node.nil]
      (shortRow Node.nil) (by decide) (by rfl) (by rfl) (by rfl),
    (parse_skips_other_rows asciiLower (docOf threeRowsAndShort) (by decide)).2.2.2
      [1] (by decide) (by rfl) (by rfl) (by decide),
    (parse_skips_other_rows asciiLower (docOf threeRowsAndShort) (by decide)).1,
    (parse_skips_other_rows asciiLower (docOf threeRowsAndShort) (by decide)).2.1⟩

/-! ## The first row with 4 cells -/

/-- C5: when the first row with exactly 4 cells of a non-nil document is `r`, the first value
of the output carries the lower-cased text of the label cell of `r` as its name, with nothing
put before it, whatever that label is; so also when it starts with a hyphen. -/
theorem first_row_never_merged (lr : Char → Char) (data r : Node) (others : List Node)
    (h : data ≠ Node.nil) (hr : (rows data).filter fourCells = r :: others) :
    ∃ more, parse lr data =
      Except.ok (⟨toLower lr (cellText r 1), cellText r 2, cellText r 3⟩ :: more, none) := by
  have h4 : fourCells r = true :=
    (List.mem_filter.mp (hr ▸ List.mem_cons_self r others)).2
  rw [parse_eq lr data h, foldl_rowStep_filter, hr]
  simp only [List.foldl_cons]
  have hstep : rowStep lr ((⟨"", "", ""⟩ : Value), ([] : List Value)) r =
      (⟨label lr r, cellText r 2, cellText r 3⟩, [⟨label lr r, cellText r 2, cellText r 3⟩]) := by
    have hc : continues "" (label lr r) = false := by simp [continues]
    simp [rowStep, h4, hc]
  rw [hstep]
  obtain ⟨more, hm⟩ := foldl_rowStep_vals lr others
    (⟨label lr r, cellText r 2, cellText r 3⟩, [⟨label lr r, cellText r 2, cellText r 3⟩])
  exact ⟨more, by rw [hm]; rfl⟩

/-- A document whose first row with 4 cells is labelled "-Max last 12h" (C5). -/
theorem first_row_never_merged_witness :
    docOf hyphenFirstRows ≠ Node.nil ∧
    (rows (docOf hyphenFirstRows)).filter fourCells =
      [plainRow "-Max last 12h" "29.7" "°C" (plainRow "-min last 12h" "16.4" "°C" Node.nil),
       plainRow "-min last 12h" "16.4" "°C" Node.nil] ∧
    parse asciiLower (docOf hyphenFirstRows) =
      Except.ok ([⟨"-max last 12h", "29.7", "°C"⟩, ⟨"-max last 12h -min last 12h", "16.4", "°C"⟩],
        none) ∧
    ∃ more, parse asciiLower (docOf hyphenFirstRows) =
      Except.ok (⟨toLower asciiLower (cellText
        (plainRow "-Max last 12h" "29.7" "°C" (plainRow "-min last 12h" "16.4" "°C" Node.nil)) 1),
        "29.7", "°C"⟩ :: more, none) :=
  ⟨by decide, by rfl, by rfl,
    first_row_never_merged asciiLower (docOf hyphenFirstRows)
      (plainRow "-Max last 12h" "29.7" "°C" (plainRow "-min last 12h" "16.4" "°C" Node.nil))
      [plainRow "-min last 12h" "16.4" "°C" Node.nil] (by decide) (by rfl)⟩

/-! ## Errors and panics -/

/-- C6: `parse` returns an error exactly for the nil document, and then no values; for a non-nil
document it returns its values with a nil error; no call panics (the accesses `cols[1]`,
`cols[2]`, `cols[3]` and `v.Name[0:1]` are in range, no nil node is dereferenced); and the
values are the empty sequence when no row has exactly 4 cells. -/
theorem parse_error_iff_nil (lr : Char → Char) (data : Node) :
    parse lr Node.nil = Except.ok ([], some "nil body") ∧
    (data ≠ Node.nil → ∃ vals, parse lr data = Except.ok (vals, none)) ∧
    ((∃ vals msg, parse lr data = Except.ok (vals, some msg)) ↔ data = Node.nil) ∧
    (∀ e, parse lr data ≠ Except.error e) ∧
    (∀ n st, n ∈ rows data → ∃ st1, parseBody lr n st = Except.ok st1) ∧
    (data ≠ Node.nil → (∀ r ∈ rows data, fourCells r = false) →
      parse lr data = Except.ok ([], none)) := by
  have hnil : parse lr Node.nil = Except.ok ([], some "nil body") := rfl
  refine ⟨hnil, fun h => ⟨_, parse_eq lr data h⟩, ?_, ?_, ?_, ?_⟩
  · constructor
    · rintro ⟨vals, msg, hp⟩
      by_contra hne
      rw [parse_eq lr data hne] at hp
      simp at hp
    · intro h
      exact ⟨[], "nil body", h ▸ hnil⟩
  · intro e he
    by_cases h : data = Node.nil
    · rw [h, hnil] at he
      exact absurd he (by simp)
    · rw [parse_eq lr data h] at he
      exact absurd he (by simp)
  · intro n st hn
    exact ⟨_, parseBody_eq lr n st (rows_ne_nil data n hn)⟩
  · intro h hall
    have hf : (rows data).filter fourCells = [] := by
      rw [List.filter_eq_nil_iff]
      intro r hr
      simp [hall r hr]
    rw [parse_eq lr data h, foldl_rowStep_filter, hf]
    rfl

/-! ## Continuation rows -/

theorem continuation_run (lr : Char → Char) (lv : Value) (vals : List Value)
    (l : List Node) (hlv : 0 < lv.Name.length)
    (hl : ∀ n ∈ l, n ≠ Node.nil ∧ fourCells n = true ∧ 0 < (label lr n).length ∧
      (label lr n).data.head? = some '-') :
    parseLoop lr l (lv, vals) =
      Except.ok (lv, vals ++ l.map (fun n =>
        (⟨lv.Name ++ " " ++ label lr n, cellText n 2, cellText n 3⟩ : Value))) := by
  induction l generalizing vals with
  | nil => simp [parseLoop]
  | cons n rest ih =>
    obtain ⟨hn, h4, hlen, hhead⟩ := hl n (List.mem_cons_self _ _)
    have hc : continues lv.Name (label lr n) = true := by simp [continues, hlen, hlv, hhead]
    have hstep : rowStep lr (lv, vals) n =
        (lv, vals ++ [⟨lv.Name ++ " " ++ label lr n, cellText n 2, cellText n 3⟩]) := by
      simp [rowStep, h4, hc]
    rw [parseLoop, parseBody_eq lr n _ hn, hstep]
    simp only []
    rw [ih _ (fun m hm => hl m (List.mem_cons_of_mem _ hm))]
    simp

theorem parseBody_primary (lr : Char → Char) (st : Value × List Value) (n : Node)
    (hn : n ≠ Node.nil) (h4 : fourCells n = true)
    (hc : ¬ (0 < (label lr n).length ∧ 0 < st.1.Name.length ∧
      (label lr n).data.head? = some '-')) :
    parseBody lr n st =
      Except.ok (⟨label lr n, cellText n 2, cellText n 3⟩,
        st.2 ++ [⟨label lr n, cellText n 2, cellText n 3⟩]) := by
  have hcont : continues st.1.Name (label lr n) = false := by
    cases hb : continues st.1.Name (label lr n) with
    | false => rfl
    | true =>
      exfalso
      apply hc
      simpa [continues, and_assoc] using hb
  rw [parseBody_eq lr n st hn]
  simp [rowStep, h4, hcont]

/-- C2: the loop of `parse` on rows with 4 cells.  A row whose lower-cased label is non-empty
and starts with a hyphen, met while the name in `lv` is non-empty, is appended under the name
`lv.Name`, a space and the label with its hyphen, and leaves `lv` as it was; every other row
is appended under its own label and becomes `lv`.  So a run `l` of continuation rows leaves
`lv` as it was and gives every row of the run the same primary name, none chained onto the row
before it; and after a row `p` that is not a continuation the run takes the name of `p`,
whatever `lv` held before, and `lv` is `p` when the run is over. -/
theorem continuation_rows_share_primary (lr : Char → Char) (lv : Value) (vals : List Value)
    (l : List Node) (hlv : 0 < lv.Name.length)
    (hl : ∀ n ∈ l, n ≠ Node.nil ∧ fourCells n = true ∧ 0 < (label lr n).length ∧
      (label lr n).data.head? = some '-') :
    parseLoop lr l (lv, vals) =
      Except.ok (lv, vals ++ l.map (fun n =>
        (⟨lv.Name ++ " " ++ label lr n, cellText n 2, cellText n 3⟩ : Value))) ∧
    (∀ (st : Value × List Value) (n : Node), n ≠ Node.nil → fourCells n = true →
      0 < (label lr n).length → 0 < st.1.Name.length → (label lr n).data.head? = some '-' →
      parseBody lr n st =
        Except.ok (st.1, st.2 ++ [⟨st.1.Name ++ " " ++ label lr n, cellText n 2, cellText n 3⟩])) ∧
    (∀ (st : Value × List Value) (n : Node), n ≠ Node.nil → fourCells n = true →
      ¬ (0 < (label lr n).length ∧ 0 < st.1.Name.length ∧
        (label lr n).data.head? = some '-') →
      parseBody lr n st =
        Except.ok (⟨label lr n, cellText n 2, cellText n 3⟩,
          st.2 ++ [⟨label lr n, cellText n 2, cellText n 3⟩])) ∧
    (∀ (st : Value × List Value) (p : Node) (rest : List Node), p ≠ Node.nil →
      fourCells p = true → 0 < (label lr p).length →
      ¬ (0 < (label lr p).length ∧ 0 < st.1.Name.length ∧
        (label lr p).data.head? = some '-') →
      parseLoop lr (p :: (l ++ rest)) st =
        parseLoop lr rest (⟨label lr p, cellText p 2, cellText p 3⟩,
          st.2 ++ ⟨label lr p, cellText p 2, cellText p 3⟩ :: l.map (fun n =>
            (⟨label lr p ++ " " ++ label lr n, cellText n 2, cellText n 3⟩ : Value)))) := by
  refine ⟨continuation_run lr lv vals l hlv hl, ?_, ?_, ?_⟩
  · intro st n hn h4 hlen hst hhead
    have hc : continues st.1.Name (label lr n) = true := by simp [continues, hlen, hst, hhead]
    rw [parseBody_eq lr n st hn]
    simp [rowStep, h4, hc]
  · intro st n hn h4 hc
    exact parseBody_primary lr st n hn h4 hc
  · intro st p rest hp h4 hlen hc
    rw [parseLoop, parseBody_primary lr st p hp h4 hc]
    simp only []
    rw [parseLoop_append, continuation_run lr _ _ l hlen hl]
    simp

/-- The labels "Temperature", "-max last 12h", "-min last 12h" give the names "temperature",
"temperature -max last 12h", "temperature -min last 12h"; and the labels "Temperature",
"Wind speed", "-gust" give "temperature", "wind speed", "wind speed -gust": the continuation
takes the name of the last row that was not a continuation (C2). -/
theorem continuation_rows_share_primary_witness :
    (0 < ("temperature" : String).length ∧
      ∀ n ∈ (rows (docOf threeRows)).tail, n ≠ Node.nil ∧ fourCells n = true ∧
        0 < (label asciiLower n).length ∧ (label asciiLower n).data.head? = some '-') ∧
    parse asciiLower (docOf threeRows) =
      Except.ok ([⟨"temperature", "29.2", "°C"⟩, ⟨"temperature -max last 12h", "29.7", "°C"⟩,
        ⟨"temperature -min last 12h", "16.4", "°C"⟩], none) ∧
    parse asciiLower (docOf gustRows) =
      Except.ok ([⟨"temperature", "29.2", "°C"⟩, ⟨"wind speed", "2.0", "m/s"⟩,
        ⟨"wind speed -gust", "5.1", "m/s"⟩], none) ∧
    parseLoop asciiLower (rows (docOf threeRows)).tail
        (⟨"temperature", "29.2", "°C"⟩, [⟨"temperature", "29.2", "°C"⟩]) =
      Except.ok (⟨"temperature", "29.2", "°C"⟩,
        [⟨"temperature", "29.2", "°C"⟩, ⟨"temperature -max last 12h", "29.7", "°C"⟩,
          ⟨"temperature -min last 12h", "16.4", "°C"⟩]) ∧
    parseLoop asciiLower
        (plainRow "Wind speed" "2.0" "m/s" Node.nil :: ((rows (docOf threeRows)).tail ++ []))
        (⟨"temperature", "29.2", "°C"⟩, [⟨"temperature", "29.2", "°C"⟩]) =
      parseLoop asciiLower []
        (⟨"wind speed", "2.0", "m/s"⟩,
          [⟨"temperature", "29.2", "°C"⟩, ⟨"wind speed", "2.0", "m/s"⟩,
            ⟨"wind speed -max last 12h", "29.7", "°C"⟩,
            ⟨"wind speed -min last 12h", "16.4", "°C"⟩]) :=
  ⟨⟨by decide, by decide⟩, by rfl, by rfl,
    (continuation_rows_share_primary asciiLower ⟨"temperature", "29.2", "°C"⟩
      [⟨"temperature", "29.2", "°C"⟩] (rows (docOf threeRows)).tail (by decide) (by decide)).1,
    (continuation_rows_share_primary asciiLower ⟨"temperature", "29.2", "°C"⟩
      [⟨"temperature", "29.2", "°C"⟩] (rows (docOf threeRows)).tail (by decide)
      (by decide)).2.2.2
      (⟨"temperature", "29.2", "°C"⟩, [⟨"temperature", "29.2", "°C"⟩])
      (plainRow "Wind speed" "2.0" "m/s" Node.nil) [] (by decide) (by rfl) (by decide)
      (by decide)⟩

/-! ## Lower case -/

theorem toLower_append (lr : Char → Char) (a b : String) :
    toLower lr (a ++ b) = toLower lr a ++ toLower lr b := by
  apply String.ext
  simp [toLower, String.data_append]

theorem toLower_idem (lr : Char → Char) (hid : ∀ c, lr (lr c) = lr c) (s : String) :
    toLower lr (toLower lr s) = toLower lr s := by
  apply String.ext
  simp [toLower, hid]

theorem toLower_space (lr : Char → Char) (hsp : lr ' ' = ' ') : toLower lr " " = " " := by
  apply String.ext
  simp [toLower, hsp]

theorem rowStep_lower (lr : Char → Char) (hid : ∀ c, lr (lr c) = lr c) (hsp : lr ' ' = ' ')
    (st : Value × List Value) (n : Node)
    (h1 : toLower lr st.1.Name = st.1.Name) (h2 : ∀ v ∈ st.2, toLower lr v.Name = v.Name) :
    toLower lr (rowStep lr st n).1.Name = (rowStep lr st n).1.Name ∧
      ∀ v ∈ (rowStep lr st n).2, toLower lr v.Name = v.Name := by
  have hlab : toLower lr (label lr n) = label lr n := toLower_idem lr hid _
  unfold rowStep
  split_ifs
  · refine ⟨h1, ?_⟩
    intro v hv
    rcases List.mem_append.mp hv with hv | hv
    · exact h2 v hv
    · rw [List.mem_singleton.mp hv]
      simp only [toLower_append, h1, toLower_space lr hsp, hlab]
  · refine ⟨hlab, ?_⟩
    intro v hv
    rcases List.mem_append.mp hv with hv | hv
    · exact h2 v hv
    · rw [List.mem_singleton.mp hv]
      exact hlab
  · exact ⟨h1, h2⟩

theorem foldl_rowStep_lower (lr : Char → Char) (hid : ∀ c, lr (lr c) = lr c)
    (hsp : lr ' ' = ' ') (l : List Node) (st : Value × List Value)
    (h1 : toLower lr st.1.Name = st.1.Name) (h2 : ∀ v ∈ st.2, toLower lr v.Name = v.Name) :
    ∀ v ∈ (l.foldl (rowStep lr) st).2, toLower lr v.Name = v.Name := by
  induction l generalizing st with
  | nil => exact h2
  | cons n rest ih =>
    obtain ⟨k1, k2⟩ := rowStep_lower lr hid hsp st n h1 h2
    exact ih _ k1 k2

theorem toNat_ofNat_small (k : Nat) (h : k < 55296) : (Char.ofNat k).toNat = k := by
  have hv : k.isValidChar := Or.inl h
  unfold Char.ofNat
  rw [dif_pos hv]
  simp [Char.ofNatAux, Char.toNat, UInt32.toNat]

theorem asciiLower_idem (c : Char) : asciiLower (asciiLower c) = asciiLower c := by
  unfold asciiLower
  by_cases h : 65 ≤ c.toNat ∧ c.toNat ≤ 90
  · have hv : (Char.ofNat (c.toNat + 32)).toNat = c.toNat + 32 :=
      toNat_ofNat_small _ (by omega)
    have : ¬ (65 ≤ c.toNat + 32 ∧ c.toNat + 32 ≤ 90) := by omega
    rw [if_pos h, hv, if_neg this]
  · rw [if_neg h, if_neg h]

/-- C10: when the rune mapping of `strings.ToLower` leaves its own results and the space as
they are, every name in the output of `parse` is lower-cased already: lower-casing it again
gives the same name, for the continuation names too. -/
theorem names_lower_cased (lr : Char → Char) (hid : ∀ c, lr (lr c) = lr c)
    (hsp : lr ' ' = ' ') (data : Node) :
    ∃ vals err, parse lr data = Except.ok (vals, err) ∧
      ∀ v ∈ vals, toLower lr v.Name = v.Name := by
  by_cases h : data = Node.nil
  · exact ⟨[], some "nil body", h ▸ rfl, by simp⟩
  · refine ⟨_, none, parse_eq lr data h, ?_⟩
    apply foldl_rowStep_lower lr hid hsp
    · apply String.ext
      simp [toLower]
    · simp

/-- The names of the sample table are lower-cased, the merged ones included (C10). -/
theorem names_lower_cased_witness :
    ((∀ c, asciiLower (asciiLower c) = asciiLower c) ∧ asciiLower ' ' = ' ') ∧
    ∃ vals err, parse asciiLower sampleDoc = Except.ok (vals, err) ∧
      ∀ v ∈ vals, toLower asciiLower v.Name = v.Name :=
  ⟨⟨asciiLower_idem, by decide⟩,
    names_lower_cased asciiLower asciiLower_idem (by decide) sampleDoc⟩

/-! ## No trimming -/

/-- C3 as stated fails: for the row whose label cell reads " Temperature " the name in the
output is " temperature ", which starts and ends with a space, while the lower-cased trimmed
text is "temperature". -/
theorem label_not_trimmed :
    (rows (docOf paddedRow)).filter fourCells = [paddedRow] ∧
    cellText paddedRow 1 = " Temperature " ∧
    toLower asciiLower (specTrim (cellText paddedRow 1)) = "temperature" ∧
    parse asciiLower (docOf paddedRow) = Except.ok ([⟨" temperature ", "29.2", "°C"⟩], none) ∧
    ¬ (∀ vals, parse asciiLower (docOf paddedRow) = Except.ok (vals, none) →
      ∀ v ∈ vals, v.Name = toLower asciiLower (specTrim (cellText paddedRow 1))) := by
  have hp : parse asciiLower (docOf paddedRow) =
      Except.ok ([⟨" temperature ", "29.2", "°C"⟩], none) := by rfl
  have ht : toLower asciiLower (specTrim (cellText paddedRow 1)) = "temperature" := by rfl
  refine ⟨by rfl, by rfl, ht, hp, ?_⟩
  intro hall
  have := hall _ hp ⟨" temperature ", "29.2", "°C"⟩ (List.mem_singleton.mpr rfl)
  rw [ht] at this
  exact absurd this (by decide)

/-- C3, amended: for a row with exactly 4 cells the name that `parse` computes from the label
cell is the lower-cased `nodeText` of cell 1 without trimming: its code points are those of
the cell's text, mapped one by one, none removed; the value appended for the row is named so,
or, in the continuation branch, `lv.Name`, a space and that name. -/
theorem label_is_lowered_text (lr : Char → Char) (n : Node) (st : Value × List Value)
    (hn : n ≠ Node.nil) (h4 : fourCells n = true) :
    ∃ c1 v st1, (cells n).get? 1 = some c1 ∧ parseBody lr n st = Except.ok (st1, st.2 ++ [v]) ∧
      v.Name = (if continues st.1.Name (toLower lr (nodeText c1)) then
        st.1.Name ++ " " ++ toLower lr (nodeText c1) else toLower lr (nodeText c1)) ∧
      (toLower lr (nodeText c1)).data = (nodeText c1).data.map lr ∧
      (toLower lr (nodeText c1)).length = (nodeText c1).length := by
  have hlen : (cells n).length = 4 := by simpa [fourCells] using h4
  obtain ⟨c1, hc1⟩ : ∃ c1, (cells n).get? 1 = some c1 := by
    match hcs : cells n, hlen with
    | [_, c1, _, _], _ => exact ⟨c1, rfl⟩
  have hlab : label lr n = toLower lr (nodeText c1) := by
    unfold label cellText
    rw [hc1]
  have hdata : (toLower lr (nodeText c1)).data = (nodeText c1).data.map lr := rfl
  have hlength : (toLower lr (nodeText c1)).length = (nodeText c1).length := by
    simp only [String.length, hdata, List.length_map]
  rw [parseBody_eq lr n st hn]
  unfold rowStep
  rw [h4, hlab]
  by_cases hc : continues st.1.Name (toLower lr (nodeText c1)) = true
  · refine ⟨c1, ⟨st.1.Name ++ " " ++ toLower lr (nodeText c1), cellText n 2, cellText n 3⟩,
      st.1, hc1, ?_, ?_, hdata, hlength⟩
    · simp only [hc, if_true]
    · simp only [hc, if_true]
  · refine ⟨c1, ⟨toLower lr (nodeText c1), cellText n 2, cellText n 3⟩,
      ⟨toLower lr (nodeText c1), cellText n 2, cellText n 3⟩, hc1, ?_, ?_, hdata, hlength⟩
    · simp only [hc, if_true, if_false]
      rfl
    · simp only [hc, if_false]
      rfl

/-- The padded label keeps its two spaces (C3, amended). -/
theorem label_is_lowered_text_witness :
    (paddedRow ≠ Node.nil ∧ fourCells paddedRow = true) ∧
    ∃ c1 v st1, (cells paddedRow).get? 1 = some c1 ∧
      parseBody asciiLower paddedRow (⟨"", "", ""⟩, []) = Except.ok (st1, [] ++ [v]) ∧
      v.Name = (if continues "" (toLower asciiLower (nodeText c1)) then
        "" ++ " " ++ toLower asciiLower (nodeText c1) else toLower asciiLower (nodeText c1)) ∧
      (toLower asciiLower (nodeText c1)).data = (nodeText c1).data.map asciiLower ∧
      (toLower asciiLower (nodeText c1)).length = (nodeText c1).length :=
  ⟨⟨by decide, by rfl⟩,
    label_is_lowered_text asciiLower paddedRow (⟨"", "", ""⟩, []) (by decide) (by rfl)⟩

/-! ## Descendants reached through elements -/

theorem nthSibling_succ (x : Node) (k : Nat) :
    nthSibling x (k + 1) = nextSiblingOf (nthSibling x k) := by
  induction k generalizing x with
  | zero => rfl
  | succ j ih =>
    rw [nthSibling, ih (nextSiblingOf x)]
    rfl

theorem elementPositions_head (n : Node) (k : Nat) :
    ∀ p ∈ elementPositions n k, ∃ j q, p = j :: q ∧ k ≤ j := by
  induction n generalizing k with
  | nil => simp [elementPositions]
  | mk t d fc ns _ ihs =>
    intro p hp
    rw [elementPositions, List.mem_cons, List.mem_append] at hp
    rcases hp with hp | hp | hp
    · exact ⟨k, [], hp, le_refl k⟩
    · by_cases ht : t = ElementNode
      · simp only [ht, if_true, List.mem_map] at hp
        obtain ⟨q, _, hq⟩ := hp
        exact ⟨k, q, hq.symm, le_refl k⟩
      · simp [ht] at hp
    · obtain ⟨j, q, hq, hj⟩ := ihs (k + 1) p hp
      exact ⟨j, q, hq, by omega⟩

theorem elementPositions_nodup (n : Node) (k : Nat) : (elementPositions n k).Nodup := by
  induction n generalizing k with
  | nil => simp [elementPositions]
  | mk t d fc ns ihc ihs =>
    rw [elementPositions, List.nodup_cons]
    have hsib : ∀ p ∈ elementPositions ns (k + 1), ∃ j q, p = j :: q ∧ k + 1 ≤ j :=
      elementPositions_head ns (k + 1)
    have hchild : ∀ p ∈ (if t = ElementNode then (elementPositions fc 0).map (List.cons k)
        else []), ∃ q, p = k :: q ∧ q ≠ [] := by
      intro p hp
      by_cases ht : t = ElementNode
      · simp only [ht, if_true, List.mem_map] at hp
        obtain ⟨q, hq, hpq⟩ := hp
        obtain ⟨j, r, hr, _⟩ := elementPositions_head fc 0 q hq
        exact ⟨q, hpq.symm, by simp [hr]⟩
      · simp [ht] at hp
    constructor
    · intro hmem
      rcases List.mem_append.mp hmem with hm | hm
      · obtain ⟨q, hq, hne⟩ := hchild _ hm
        simp only [List.cons.injEq, true_and] at hq
        exact hne hq.symm
      · obtain ⟨j, q, hq, hj⟩ := hsib _ hm
        simp only [List.cons.injEq] at hq
        omega
    · rw [List.nodup_append]
      refine ⟨?_, ihs (k + 1), ?_⟩
      · by_cases ht : t = ElementNode
        · simp only [ht, if_true]
          exact (ihc 0).map (fun a b hab => by simpa using hab)
        · simp [ht]
      · intro p hp1 hp2
        obtain ⟨q, hq, _⟩ := hchild p hp1
        obtain ⟨j, r, hr, hj⟩ := hsib p hp2
        rw [hq] at hr
        simp only [List.cons.injEq] at hr
        omega

theorem elementPositions_nodeAt (up n : Node) (k : Nat)
    (h : nthSibling (firstChildOf up) k = n) :
    (elementPositions n k).map (nodeAt up) = elementPreorder n := by
  induction n generalizing up k with
  | nil => rfl
  | mk t d fc ns ihc ihs =>
    rw [elementPositions, elementPreorder, List.map_cons, List.map_append,
      ihs up (k + 1) (by rw [nthSibling_succ, h]; rfl)]
    have h0 : nodeAt up [k] = Node.mk t d fc ns := by simp [nodeAt, h]
    rw [h0]
    by_cases ht : t = ElementNode
    · have hc := ihc (Node.mk t d fc ns) 0 (by rfl)
      simp only [ht, if_true, List.map_map]
      have : (nodeAt up ∘ List.cons k) = nodeAt (Node.mk ElementNode d fc ns) := by
        funext q
        simp [nodeAt, h, ht]
      rw [this, ← hc, ht]
    · simp [ht]

theorem nthSibling_nil (k : Nat) : nthSibling Node.nil k = Node.nil := by
  induction k with
  | zero => rfl
  | succ j ih => exact ih

theorem reachIn_nil (p : List Nat) : reachIn Node.nil p = false := by
  match p with
  | [] => rfl
  | [i] => simp [reachIn, nthSibling_nil]
  | i :: j :: q => simp [reachIn, nthSibling_nil, isElement]

theorem reachIn_succ (t : NodeType) (d : String) (fc ns : Node) (i : Nat) (q : List Nat) :
    reachIn (Node.mk t d fc ns) ((i + 1) :: q) = reachIn ns (i :: q) := by
  cases q with
  | nil => rfl
  | cons j r => rfl

theorem mem_elementPositions (n : Node) (k : Nat) (p : List Nat) :
    p ∈ elementPositions n k ↔ ∃ i q, p = (k + i) :: q ∧ reachIn n (i :: q) = true := by
  induction n generalizing k p with
  | nil => simp [elementPositions, reachIn_nil]
  | mk t d fc ns ihc ihs =>
    rw [elementPositions, List.mem_cons, List.mem_append]
    constructor
    · rintro (hp | hp | hp)
      · exact ⟨0, [], by simp [hp], by simp [reachIn, nthSibling]⟩
      · by_cases ht : t = ElementNode
        · simp only [ht, if_true, List.mem_map] at hp
          obtain ⟨r, hr, hpr⟩ := hp
          obtain ⟨i, q, hiq, hreach⟩ := (ihc 0 r).mp hr
          refine ⟨0, r, by simp [hpr], ?_⟩
          rw [hiq, Nat.zero_add]
          simp [reachIn, nthSibling, isElement, ht, firstChildOf, hreach]
        · simp [ht] at hp
      · obtain ⟨i, q, hiq, hreach⟩ := (ihs (k + 1) p).mp hp
        exact ⟨i + 1, q, by rw [hiq]; congr 1; omega, by rw [reachIn_succ]; exact hreach⟩
    · rintro ⟨i, q, hiq, hreach⟩
      cases i with
      | zero =>
        cases q with
        | nil => left; simpa using hiq
        | cons j r =>
          right; left
          simp only [reachIn, nthSibling, isElement, firstChildOf, Bool.and_eq_true,
            decide_eq_true_eq] at hreach
          simp only [hreach.1, if_true, List.mem_map]
          exact ⟨j :: r, (ihc 0 (j :: r)).mpr ⟨j, r, by simp, hreach.2⟩, by simp [hiq]⟩
      | succ i1 =>
        right; right
        rw [reachIn_succ] at hreach
        exact (ihs (k + 1) p).mpr ⟨i1, q, by rw [hiq]; congr 1; omega, hreach⟩

theorem mem_elementPositions_root (root : Node) (p : List Nat) :
    p ∈ elementPositions (firstChildOf root) 0 ↔ reachable root p = true := by
  rw [mem_elementPositions]
  constructor
  · rintro ⟨i, q, hiq, hreach⟩
    rw [hiq, Nat.zero_add]
    exact hreach
  · intro h
    cases p with
    | nil => simp [reachable, reachIn] at h
    | cons i q => exact ⟨i, q, by simp, h⟩

theorem elementPositions_sorted (n : Node) (k : Nat) :
    (elementPositions n k).Pairwise (List.Lex (fun a b : Nat => a < b)) := by
  induction n generalizing k with
  | nil => simp [elementPositions]
  | mk t d fc ns ihc ihs =>
    rw [elementPositions, List.pairwise_cons]
    have hsib : ∀ p ∈ elementPositions ns (k + 1), ∃ j q, p = j :: q ∧ k + 1 ≤ j :=
      elementPositions_head ns (k + 1)
    have hchild : ∀ p ∈ (if t = ElementNode then (elementPositions fc 0).map (List.cons k)
        else []), ∃ q, p = k :: q ∧ q ≠ [] := by
      intro p hp
      by_cases ht : t = ElementNode
      · simp only [ht, if_true, List.mem_map] at hp
        obtain ⟨q, hq, hpq⟩ := hp
        obtain ⟨j, r, hr, _⟩ := elementPositions_head fc 0 q hq
        exact ⟨q, hpq.symm, by simp [hr]⟩
      · simp [ht] at hp
    constructor
    · intro p hp
      rcases List.mem_append.mp hp with hm | hm
      · obtain ⟨q, hq, hne⟩ := hchild _ hm
        rw [hq]
        cases q with
        | nil => exact absurd rfl hne
        | cons a r => exact List.Lex.cons List.Lex.nil
      · obtain ⟨j, q, hq, hj⟩ := hsib _ hm
        rw [hq]
        exact List.Lex.rel (Nat.lt_of_succ_le hj)
    · rw [List.pairwise_append]
      refine ⟨?_, ihs (k + 1), ?_⟩
      · by_cases ht : t = ElementNode
        · simp only [ht, if_true]
          rw [List.pairwise_map]
          exact (ihc 0).imp (fun hab => List.Lex.cons hab)
        · simp [ht]
      · intro p hp1 r hp2
        obtain ⟨q, hq, _⟩ := hchild p hp1
        obtain ⟨j, r1, hr, hj⟩ := hsib r hp2
        rw [hq, hr]
        exact List.Lex.rel (Nat.lt_of_succ_le hj)

/-- C7 as stated fails: the `tr` element below the inner document node of `wrappedDoc` is a
proper descendant of the root, and `findChildren` does not list it, since it does not look
below a node that is not an element. -/
theorem findChildren_misses_below_non_element :
    findChildren wrappedDoc "tr" = Except.ok [] ∧
    (descendants wrappedDoc).filter (isElementNamed "tr") = [element "tr" Node.nil Node.nil] ∧
    ¬ (∀ root tag, root ≠ Node.nil →
      findChildren root tag = Except.ok ((descendants root).filter (isElementNamed tag))) := by
  have h1 : findChildren wrappedDoc "tr" = Except.ok [] := by rfl
  have h2 : (descendants wrappedDoc).filter (isElementNamed "tr") =
      [element "tr" Node.nil Node.nil] := by rfl
  refine ⟨h1, h2, ?_⟩
  intro hall
  have := hall wrappedDoc "tr" (by decide)
  rw [h1, h2] at this
  exact absurd this (by simp)

/-- C7, amended: for a non-nil root, `findChildren(root, tag)` lists the elements with that
tag among the proper descendants of the root that are reached through element nodes only, at
every depth: there is a list of positions below the root, holding exactly the positions reached
through element nodes, each once, in document order (a parent before its children, a node
with all below it before its later siblings), and the result is the list of the nodes at these
positions that are elements with the tag.  These nodes are descendants of the root in their
document order; a matching element comes before the matches inside it; and when no node other
than an element has children below the root, the list is that of all proper descendant elements
with the tag. -/
theorem findChildren_preorder (root : Node) (tag : String) (h : root ≠ Node.nil) :
    (∃ ps : List (List Nat),
      findChildren root tag = Except.ok ((ps.map (nodeAt root)).filter (isElementNamed tag)) ∧
      (∀ p, p ∈ ps ↔ reachable root p = true) ∧
      ps.Nodup ∧
      ps.Pairwise (List.Lex (fun a b : Nat => a < b)) ∧
      ps.map (nodeAt root) = elementPreorder (firstChildOf root)) ∧
    (elementPreorder (firstChildOf root)).Sublist (descendants root) ∧
    (∀ fc ns, findLoop tag (Node.mk ElementNode tag fc ns) [] =
      Node.mk ElementNode tag fc ns :: (findLoop tag fc [] ++ findLoop tag ns [])) ∧
    ((∀ x ∈ descendants root, isElement x = false → firstChildOf x = Node.nil) →
      findChildren root tag = Except.ok ((descendants root).filter (isElementNamed tag))) := by
  have hmain : findChildren root tag =
      Except.ok ((elementPreorder (firstChildOf root)).filter (isElementNamed tag)) := by
    cases root with
    | nil => exact absurd rfl h
    | mk t d fc ns => simp [findChildren, firstChildOf, findLoop_eq_filter]
  have hpos : (elementPositions (firstChildOf root) 0).map (nodeAt root) =
      elementPreorder (firstChildOf root) := elementPositions_nodeAt root _ 0 rfl
  refine ⟨⟨elementPositions (firstChildOf root) 0, ?_, mem_elementPositions_root root,
    elementPositions_nodup _ 0, elementPositions_sorted _ 0, hpos⟩,
    elementPreorder_sublist _, ?_, ?_⟩
  · rw [hmain, hpos]
  · intro fc ns
    rw [findLoop, findLoop_acc]
    simp
  · intro hleaf
    rw [hmain, descendants, elementPreorder_eq_preorder _ hleaf]

/-- In the sample document the 13 `tr` elements are found, below `html`, `body`, `table` and
`tbody`; the first is at position `[0, 1, 2, 1, 0]` (C7, amended). -/
theorem findChildren_preorder_witness :
    sampleDoc ≠ Node.nil ∧
    (findChildren sampleDoc "tr").map List.length = Except.ok 13 ∧
    (findChildren sampleDoc "tr").map List.head? =
      Except.ok (some (nodeAt sampleDoc [0, 1, 2, 1, 0])) ∧
    reachable sampleDoc [0, 1, 2, 1, 0] = true ∧
    ((∃ ps : List (List Nat),
      findChildren sampleDoc "tr" =
        Except.ok ((ps.map (nodeAt sampleDoc)).filter (isElementNamed "tr")) ∧
      (∀ p, p ∈ ps ↔ reachable sampleDoc p = true) ∧
      ps.Nodup ∧
      ps.Pairwise (List.Lex (fun a b : Nat => a < b)) ∧
      ps.map (nodeAt sampleDoc) = elementPreorder (firstChildOf sampleDoc)) ∧
    (elementPreorder (firstChildOf sampleDoc)).Sublist (descendants sampleDoc) ∧
    (∀ fc ns, findLoop "tr" (Node.mk ElementNode "tr" fc ns) [] =
      Node.mk ElementNode "tr" fc ns :: (findLoop "tr" fc [] ++ findLoop "tr" ns [])) ∧
    ((∀ x ∈ descendants sampleDoc, isElement x = false → firstChildOf x = Node.nil) →
      findChildren sampleDoc "tr" =
        Except.ok ((descendants sampleDoc).filter (isElementNamed "tr")))) :=
  ⟨by decide, by rfl, by rfl, by rfl, findChildren_preorder sampleDoc "tr" (by decide)⟩

/-! ## The text of a node -/

theorem join_cons (a : String) (l : List String) : String.join (a :: l) = a ++ String.join l := by
  have hfold : ∀ (l : List String) (x : String),
      List.foldl (fun r s => r ++ s) x l = x ++ List.foldl (fun r s => r ++ s) "" l := by
    intro l
    induction l with
    | nil => intro x; simp
    | cons b rest ih =>
      intro x
      rw [List.foldl_cons, ih, List.foldl_cons, ih ("" ++ b)]
      simp [String.append_assoc]
  unfold String.join
  rw [List.foldl_cons, hfold]
  simp

theorem join_append (l1 l2 : List String) :
    String.join (l1 ++ l2) = String.join l1 ++ String.join l2 := by
  induction l1 with
  | nil => simp [String.join]
  | cons a rest ih => rw [List.cons_append, join_cons, join_cons, ih, String.append_assoc]

theorem textLoop_eq_join_children (n : Node) :
    textLoop n "" = String.join ((siblings n).map nodeText) := by
  induction n with
  | nil => rfl
  | mk t d fc ns _ ihs =>
    rw [textLoop_eq_nodeText, textLoop_acc, siblings, List.map_cons, join_cons, ihs]
    simp

theorem textLoop_eq_join_texts (n : Node) :
    textLoop n "" = String.join (((elementPreorder n).filter isText).map dataOf) := by
  induction n with
  | nil => rfl
  | mk t d fc ns ihc ihs =>
    rw [textLoop, textLoop_acc, ihs, elementPreorder]
    by_cases ht : t = TextNode
    · simp [ht, List.filter_cons, isText, dataOf, join_cons]
    · by_cases he : t = ElementNode
      · simp [ht, he, List.filter_cons, isText, List.filter_append, join_append, ihc]
      · simp [ht, he, List.filter_cons, isText]

/-- C8 as stated fails in its last part: all descendants of `nestedText` are text nodes, the
text nodes below it read "a" and "b", and `nodeText` gives "a": it returns the data of a text
node without looking at what is below it. -/
theorem nodeText_skips_below_text :
    (∀ x ∈ descendants nestedText, isElement x = true ∨ isText x = true) ∧
    nodeText nestedText = "a" ∧
    String.join (((descendants nestedText).filter isText).map dataOf) = "ab" ∧
    ¬ (∀ d fc ns,
      (∀ x ∈ descendants (Node.mk ElementNode d fc ns), isElement x = true ∨ isText x = true) →
      nodeText (Node.mk ElementNode d fc ns) =
        String.join (((descendants (Node.mk ElementNode d fc ns)).filter isText).map dataOf)) := by
  have h1 : ∀ x ∈ descendants nestedText, isElement x = true ∨ isText x = true := by decide
  have h2 : nodeText nestedText = "a" := by rfl
  have h3 : String.join (((descendants nestedText).filter isText).map dataOf) = "ab" := by rfl
  refine ⟨h1, h2, h3, ?_⟩
  intro hall
  have := hall "td" (Node.mk TextNode "a" (textNode "b" Node.nil) Node.nil) Node.nil h1
  rw [show Node.mk ElementNode "td" (Node.mk TextNode "a" (textNode "b" Node.nil) Node.nil)
    Node.nil = nestedText from rfl, h2, h3] at this
  exact absurd this (by decide)

/-- C8, amended: `nodeText` is the empty string for the nil node, the `Data` of a text node,
and for an element the concatenation in document order of `nodeText` over its children; hence
for an element it is the concatenation in document order of the text nodes reached from it
through element nodes, which are all its descendant text nodes when its descendants are only
elements and text nodes without children. -/
theorem nodeText_spec (d : String) (fc ns : Node) :
    nodeText Node.nil = "" ∧
    nodeText (Node.mk TextNode d fc ns) = d ∧
    nodeText (Node.mk ElementNode d fc ns) =
      String.join ((children (Node.mk ElementNode d fc ns)).map nodeText) ∧
    nodeText (Node.mk ElementNode d fc ns) =
      String.join (((elementPreorder fc).filter isText).map dataOf) ∧
    ((∀ x ∈ descendants (Node.mk ElementNode d fc ns),
        isElement x = true ∨ (isText x = true ∧ firstChildOf x = Node.nil)) →
      nodeText (Node.mk ElementNode d fc ns) =
        String.join (((descendants (Node.mk ElementNode d fc ns)).filter isText).map dataOf)) := by
  have h4 : nodeText (Node.mk ElementNode d fc ns) =
      String.join (((elementPreorder fc).filter isText).map dataOf) := by
    simp [nodeText, textLoop_eq_join_texts]
  refine ⟨rfl, by simp [nodeText], ?_, h4, ?_⟩
  · simp [nodeText, children, firstChildOf, textLoop_eq_join_children]
  · intro hall
    rw [h4, descendants, firstChildOf, elementPreorder_eq_preorder]
    intro x hx hne
    rcases hall x hx with he | ⟨_, hleaf⟩
    · rw [he] at hne
      exact absurd hne (by simp)
    · exact hleaf

/-- The cell `W/m<sup>2</sup>` has the text "W/m2" (C8). -/
theorem nodeText_radiation_unit :
    nodeText radiationUnitCell = "W/m2" ∧
    (∀ x ∈ descendants radiationUnitCell,
      isElement x = true ∨ (isText x = true ∧ firstChildOf x = Node.nil)) ∧
    String.join (((descendants radiationUnitCell).filter isText).map dataOf) = "W/m2" ∧
    nodeText radiationUnitCell =
      String.join (((descendants radiationUnitCell).filter isText).map dataOf) :=
  ⟨by rfl, by decide, by rfl,
    (nodeText_spec "td" (textNode "W/m" (element "sup" (textNode "2" Node.nil) Node.nil))
      Node.nil).2.2.2.2 (by decide)⟩

/-! ## The dispatch switch of `main` -/

theorem hyphen_not_routed (s : String) (h : '-' ∈ s.data) : s ∉ routedNames := by
  intro hs
  simp only [routedNames, List.mem_cons, List.mem_singleton, List.not_mem_nil, or_false] at hs
  rcases hs with hs | hs | hs | hs | hs | hs | hs <;>
    · rw [hs] at h
      revert h
      decide

/-- C9: a value is routed only when its name is one of the seven names of the switch, and the
value handed over is its `Value` as it is; "precipitation last hour" is routed, to
"precipitation", exactly when the unit is "mm (disdrometer)"; a value with any other name is
dropped, and so is every continuation name `lv + " " + name` with `name` starting with a
hyphen. -/
theorem dispatch_spec (ct crh : String) (v : Value) :
    (∀ u, dispatch ct crh v = some u → v.Name ∈ routedNames ∧ u.value = v.Value) ∧
    (v.Name = "precipitation last hour" →
      (dispatch ct crh v = some ⟨Device.otherDev, "precipitation", v.Value⟩ ↔
        v.Unit = "mm (disdrometer)") ∧
      ((dispatch ct crh v).isSome = true ↔ v.Unit = "mm (disdrometer)")) ∧
    (v.Name ∈ routedNames → v.Name ≠ "precipitation last hour" →
      (dispatch ct crh v).isSome = true) ∧
    (v.Name ∉ routedNames → dispatch ct crh v = none) ∧
    (∀ lvName name : String, name.data.head? = some '-' → v.Name = lvName ++ " " ++ name →
      dispatch ct crh v = none) := by
  have hdrop : v.Name ∉ routedNames → dispatch ct crh v = none := by
    intro h
    simp only [routedNames, List.mem_cons, List.mem_singleton, List.not_mem_nil, or_false,
      not_or] at h
    obtain ⟨h1, h2, h3, h4, h5, h6, h7⟩ := h
    simp [dispatch, h1, h2, h3, h4, h5, h6, h7]
  refine ⟨?_, ?_, ?_, hdrop, ?_⟩
  · intro u hu
    unfold dispatch at hu
    split_ifs at hu with h1 h2 h3 h3u h4 h5 h6 h7 <;>
      · simp only [Option.some.injEq] at hu
        subst hu
        simp [routedNames, *]
  · intro hname
    have h1 : v.Name ≠ "temperature" := by rw [hname]; decide
    have h2 : v.Name ≠ "air humidity" := by rw [hname]; decide
    by_cases hu : v.Unit = "mm (disdrometer)" <;> simp [dispatch, h1, h2, hname, hu]
  · intro hin hne
    simp only [routedNames, List.mem_cons, List.mem_singleton, List.not_mem_nil, or_false] at hin
    unfold dispatch
    split_ifs <;> simp_all
  · intro lvName name hhead hname
    apply hdrop
    apply hyphen_not_routed
    rw [hname]
    cases hdata : name.data with
    | nil => simp [hdata] at hhead
    | cons c rest =>
      rw [hdata] at hhead
      simp only [List.head?_cons, Option.some.injEq] at hhead
      simp [String.data_append, hdata, hhead]

/-- The updates made for the 13 values of the sample table, and the drop of the continuation
name "temperature -max last 12h" (C9). -/
theorem dispatch_spec_sample :
    dispatchAll "currentTemperature" "currentRelativeHumidity" sampleValues =
      [⟨Device.tempDev, "currentTemperature", "29.2"⟩,
       ⟨Device.otherDev, "windSpeed", "2.0"⟩,
       ⟨Device.otherDev, "windDirection", "326"⟩,
       ⟨Device.otherDev, "airPressure", "1016.3"⟩,
       ⟨Device.humidDev, "currentRelativeHumidity", "48.6"⟩,
       ⟨Device.otherDev, "globalRadiation", "705"⟩,
       ⟨Device.otherDev, "precipitation", "0.00"⟩] ∧
    dispatch "currentTemperature" "currentRelativeHumidity"
      ⟨"temperature -max last 12h", "29.7", "°C"⟩ = none :=
  ⟨by rfl,
    (dispatch_spec "currentTemperature" "currentRelativeHumidity"
      ⟨"temperature -max last 12h", "29.7", "°C"⟩).2.2.2.2 "temperature" "-max last 12h"
      (by rfl) (by rfl)⟩

end MetUU
